import Mathlib

/-!
Verification of the web_scraper repository against its specification.

The development shallowly embeds the Python sources:
  * an embedding of the pieces of CPython's urllib.parse (version 3.11
    semantics: WHATWG cleanup, scheme detection, netloc/fragment/query
    splitting, path-parameter splitting, urljoin resolution) that
    scraper.py's WebScraper.normalize_url and is_internal_link call;
  * the crawl controller loop of WebScraper.crawl together with
    scrape_page's link pipeline, over an abstract fetch oracle;
  * the DOM-inventory extraction (get_path, extract_dom_properties)
    over an explicit HTML tree type;
  * the JSON export shapes of WebScraper.save_to_json and of
    pipelines.JSONPipeline, and site_spider.py's link serialization.

Strings are modelled as lists of characters (Chars); String wrappers are
provided where the original API works on str.  The Unicode-only netloc
validation of urllib (_checknetloc, _check_bracketed_host) is omitted:
for the ASCII inputs considered here it never raises; the long-standing
unbalanced-IPv6-bracket ValueError is modelled, since it is reachable
and normalize_url's except-branch depends on it.
-/

namespace WebScraper

abbrev Chars := List Char

/-- Characters CPython's urlsplit strips from the left of a URL
(_WHATWG_C0_CONTROL_OR_SPACE: C0 controls and space). -/
def isC0OrSpace (c : Char) : Bool := c.val ≤ 32

/-- Characters CPython's urlsplit removes anywhere in a URL
(_UNSAFE_URL_BYTES_TO_REMOVE: tab, CR, LF). -/
def isUnsafeByte (c : Char) : Bool := c == '\t' || c == '\r' || c == '\n'

/-- The cleanup urlsplit applies before parsing: lstrip of C0/space,
then removal of tab/CR/LF everywhere. -/
def cleanUrl (l : Chars) : Chars :=
  (l.dropWhile (fun c => isC0OrSpace c)).filter (fun c => !isUnsafeByte c)

/-- scheme_chars of urllib.parse: ASCII letters, digits, plus, minus, dot. -/
def isSchemeChar (c : Char) : Bool :=
  c.isAlpha || c.isDigit || c == '+' || c == '-' || c == '.'

/-- Split a list at the first occurrence of a character: returns the part
before it and, when present, the part after it. -/
def breakAt (c : Char) (l : Chars) : Chars × Option Chars :=
  match l.dropWhile (fun x => !(x == c)) with
  | [] => (l, none)
  | _ :: rest => (l.takeWhile (fun x => !(x == c)), some rest)

/-- A netloc delimiter in _splitnetloc: one of '/', '?', '#'. -/
def isNetlocDelim (c : Char) : Bool := c == '/' || c == '?' || c == '#'

/-- _splitnetloc: take the netloc up to the first of '/', '?', '#'. -/
def splitNetloc (l : Chars) : Chars × Chars :=
  (l.takeWhile (fun c => !isNetlocDelim c), l.dropWhile (fun c => !isNetlocDelim c))

/-- Result of urlsplit before the default scheme is substituted:
schemeFound is none when the URL carries no explicit scheme. -/
structure SplitParts where
  schemeFound : Option Chars
  netloc : Chars
  path : Chars
  query : Chars
  fragment : Chars
deriving Repr, DecidableEq

/-- Scheme detection of urlsplit: the text before the first ':' is the
scheme when it is nonempty, starts with an ASCII letter and consists of
scheme characters; it is then lowercased and removed. -/
def detectScheme (url : Chars) : Option Chars × Chars :=
  let pre := url.takeWhile (fun x => !(x == ':'))
  match url.dropWhile (fun x => !(x == ':')) with
  | [] => (none, url)
  | _ :: after =>
    match pre with
    | [] => (none, url)
    | c :: cs =>
      if c.isAlpha && (c :: cs).all (fun x => isSchemeChar x) then
        (some ((c :: cs).map Char.toLower), after)
      else (none, url)

/-- Fragment then query splitting of urlsplit: split at the first '#',
then split the part before it at the first '?'. -/
def splitFragQuery (l : Chars) : Chars × Chars × Chars :=
  let fr := match breakAt '#' l with
    | (a, some b) => (a, b)
    | (a, none) => (a, [])
  let pq := match breakAt '?' fr.1 with
    | (a, some b) => (a, b)
    | (a, none) => (a, [])
  (pq.1, pq.2, fr.2)

/-- The unbalanced-IPv6-bracket test of urlsplit: '[' in the netloc
without ']' or vice versa. -/
def bracketFail (nl : Chars) : Bool :=
  (nl.contains '[' && !nl.contains ']') || (nl.contains ']' && !nl.contains '[')

/-- CPython urlsplit (allow_fragments=True), up to the choice of default
scheme.  Raises (models ValueError) on an unbalanced IPv6 bracket. -/
def urlsplitCore (url0 : Chars) : Except String SplitParts :=
  let url := cleanUrl url0
  let sd := detectScheme url
  if sd.2.take 2 = ['/', '/'] then
    let rest := sd.2.drop 2
    let nl := (splitNetloc rest).1
    let url2 := (splitNetloc rest).2
    if bracketFail nl then
      Except.error ("Invalid IPv6 URL")
    else
      let pqf := splitFragQuery url2
      Except.ok ⟨sd.1, nl, pqf.1, pqf.2.1, pqf.2.2⟩
  else
    let pqf := splitFragQuery sd.2
    Except.ok ⟨sd.1, [], pqf.1, pqf.2.1, pqf.2.2⟩

structure SplitResult where
  scheme : Chars
  netloc : Chars
  path : Chars
  query : Chars
  fragment : Chars
deriving Repr, DecidableEq

/-- urlsplit with a default scheme (used when no scheme is found). -/
def urlsplit (url dflt : Chars) : Except String SplitResult := do
  let p ← urlsplitCore url
  pure ⟨p.schemeFound.getD dflt, p.netloc, p.path, p.query, p.fragment⟩

/-- _splitparams: split path parameters from the last path segment. -/
def splitparams (path : Chars) : Chars × Chars :=
  if path.contains '/' then
    let revp := path.reverse
    let after := (revp.takeWhile (fun c => !(c == '/'))).reverse
    let pre := (revp.dropWhile (fun c => !(c == '/'))).reverse
    match breakAt ';' after with
    | (_, none) => (path, [])
    | (a, some b) => (pre ++ a, b)
  else
    match breakAt ';' path with
    | (_, none) => (path, [])
    | (a, some b) => (a, b)

structure ParseResult where
  scheme : Chars
  netloc : Chars
  path : Chars
  params : Chars
  query : Chars
  fragment : Chars
deriving Repr, DecidableEq

/-- The conditional parameter split of urlparse: split only when a ';'
occurs in the path. -/
def splitparamsIf (p : Chars) : Chars × Chars :=
  if p.contains ';' then splitparams p else (p, [])

/-- CPython urlparse: urlsplit plus path-parameter splitting. -/
def urlparse (url dflt : Chars) : Except String ParseResult := do
  let r ← urlsplit url dflt
  pure ⟨r.scheme, r.netloc, (splitparamsIf r.path).1, (splitparamsIf r.path).2,
        r.query, r.fragment⟩

/-- urllib.parse.uses_relative (CPython 3.11). -/
def usesRelative : List Chars :=
  List.map String.toList
    ["", "ftp", "http", "gopher", "nntp", "imap", "wais", "file", "https",
     "shttp", "mms", "prospero", "rtsp", "rtsps", "rtspu", "sftp", "svn",
     "svn+ssh", "ws", "wss"]

/-- urllib.parse.uses_netloc (CPython 3.11). -/
def usesNetloc : List Chars :=
  List.map String.toList
    ["", "ftp", "http", "gopher", "nntp", "telnet", "imap", "wais", "file",
     "mms", "https", "shttp", "snews", "prospero", "rtsp", "rtsps", "rtspu",
     "rsync", "svn", "svn+ssh", "sftp", "nfs", "git", "git+ssh", "ws", "wss"]

/-- CPython urlunsplit. -/
def urlunsplit (scheme netloc path query fragment : Chars) : Chars :=
  let url := path
  let url :=
    if netloc ≠ [] ∨ (scheme ≠ [] ∧ scheme ∈ usesNetloc ∧ url.take 2 ≠ ['/', '/']) then
      let url := if url ≠ [] ∧ url.head? ≠ some '/' then '/' :: url else url
      '/' :: '/' :: (netloc ++ url)
    else url
  let url := if scheme ≠ [] then scheme ++ ':' :: url else url
  let url := if query ≠ [] then url ++ '?' :: query else url
  if fragment ≠ [] then url ++ '#' :: fragment else url

/-- CPython urlunparse. -/
def urlunparse (scheme netloc path params query fragment : Chars) : Chars :=
  let url := if params ≠ [] then path ++ ';' :: params else path
  urlunsplit scheme netloc url query fragment

/-- str.split(sep) worker: acc holds the current group, reversed. -/
def pySplitAux (sep : Char) : Chars → Chars → List Chars
  | [], acc => [acc.reverse]
  | c :: rest, acc =>
    if c == sep then acc.reverse :: pySplitAux sep rest []
    else pySplitAux sep rest (c :: acc)

/-- str.split(sep) for one separator character; the result is never empty. -/
def pySplitChar (sep : Char) (l : Chars) : List Chars :=
  pySplitAux sep l []

/-- str.join for a fixed separator, on character lists. -/
def pyJoinChars (sep : Chars) : List Chars → Chars
  | [] => []
  | [g] => g
  | g :: gs => g ++ sep ++ pyJoinChars sep gs

/-- segments[1:-1] = filter(None, segments[1:-1]) of urljoin. -/
def filterInterior (l : List Chars) : List Chars :=
  match l with
  | [] => []
  | [a] => [a]
  | a :: rest => a :: ((rest.dropLast.filter (fun s => s ≠ [])) ++ [rest.getLastD []])

/-- The tail of urljoin after the netloc has been chosen: the
path-copying branch and the relative-segment resolution. -/
def joinPaths (b u : ParseResult) (netloc : Chars) : Chars :=
  if u.path = [] ∧ u.params = [] then
    let query := if u.query = [] then b.query else u.query
    urlunparse u.scheme netloc b.path b.params query u.fragment
  else
    let baseParts0 := pySplitChar '/' b.path
    let baseParts := if baseParts0.getLastD [] ≠ [] then baseParts0.dropLast else baseParts0
    let segments :=
      if u.path.take 1 = ['/'] then pySplitChar '/' u.path
      else filterInterior (baseParts ++ pySplitChar '/' u.path)
    let resolved := segments.foldl
      (fun acc seg =>
        if seg = ['.', '.'] then acc.dropLast
        else if seg = ['.'] then acc
        else acc ++ [seg]) []
    let resolved :=
      if segments.getLastD [] = ['.'] ∨ segments.getLastD [] = ['.', '.'] then
        resolved ++ [[]]
      else resolved
    let joined := List.intercalate ['/'] resolved
    let path := if joined = [] then ['/'] else joined
    urlunparse u.scheme netloc path u.params u.query u.fragment

/-- CPython urljoin (allow_fragments=True). -/
def urljoin (base url : Chars) : Except String Chars :=
  if base = [] then Except.ok url
  else if url = [] then Except.ok base
  else do
    let b ← urlparse base []
    let u ← urlparse url b.scheme
    if u.scheme ≠ b.scheme ∨ u.scheme ∉ usesRelative then
      pure url
    else if u.scheme ∈ usesNetloc then
      if u.netloc ≠ [] then
        pure (urlunparse u.scheme u.netloc u.path u.params u.query u.fragment)
      else
        pure (joinPaths b u b.netloc)
    else
      pure (joinPaths b u u.netloc)

/-- The canonical form WebScraper.normalize_url rebuilds:
scheme + "://" + netloc + path + ("?" + query if query).
Fragment and path parameters are dropped. -/
def rebuildUrl (p : ParseResult) : Chars :=
  p.scheme ++ (':' :: '/' :: '/' :: p.netloc) ++ p.path ++
    (if p.query = [] then [] else '?' :: p.query)

/-- WebScraper.normalize_url (scraper.py, lines 78-86), on character
lists.  Resolves against the scraper's start_url; strips the fragment;
on any parse error returns the input unchanged (the except branch). -/
def normalizeChars (start url : Chars) : Chars :=
  let comp : Except String Chars := do
    let resolved ← urljoin start url
    let p ← urlparse resolved []
    pure (rebuildUrl p)
  match comp with
  | .ok v => v
  | .error _ => url

/-- WebScraper.normalize_url on String. -/
def normalize_url (start url : String) : String :=
  ⟨normalizeChars start.toList url.toList⟩

/-- WebScraper.is_internal_link (scraper.py, lines 70-76): compares the
netloc of the candidate with the netloc of start_url; any parse error
yields false. -/
def isInternalChars (start url : Chars) : Bool :=
  match urlparse url [], urlparse start [] with
  | .ok pu, .ok ps => pu.netloc == ps.netloc
  | _, _ => false

/-- WebScraper.is_internal_link on String. -/
def is_internal_link (start url : String) : Bool :=
  isInternalChars start.toList url.toList

/-! ## The DOM model and extract_dom_properties -/

/-- A BeautifulSoup attribute value: a plain string or a multi-valued
list (e.g. class). -/
inductive AttrVal where
  | str (s : String)
  | vals (vs : List String)
deriving Repr, DecidableEq, BEq

/-- A parsed HTML node: an element with tag, attributes and children, or
a text node.  The BeautifulSoup [document] root is modelled implicitly:
a document is the list of its top-level nodes. -/
inductive Node where
  | elem (tag : String) (attrs : List (String × AttrVal)) (children : List Node)
  | text (s : String)

def tagOf : Node → String
  | .elem t _ _ => t
  | .text _ => ""

def childrenOf : Node → List Node
  | .elem _ _ cs => cs
  | .text _ => []

def attrsOf : Node → List (String × AttrVal)
  | .elem _ a _ => a
  | .text _ => []

/- BeautifulSoup Tag equality (used by list.index in get_path): two
tags are equal when name, attributes and contents coincide; text nodes
compare by their string. -/
mutual
def nodeBeq : Node → Node → Bool
  | .text a, .text b => a == b
  | .elem t1 a1 c1, .elem t2 a2 c2 => t1 == t2 && a1 == a2 && nodeListBeq c1 c2
  | _, _ => false
def nodeListBeq : List Node → List Node → Bool
  | [], [] => true
  | x :: xs, y :: ys => nodeBeq x y && nodeListBeq xs ys
  | _, _ => false
end

/- All descendant strings of a node, in document order (the strings
BeautifulSoup's get_text walks). -/
mutual
def nodeStrings : Node → List String
  | .text s => [s]
  | .elem _ _ cs => nodeListStrings cs
def nodeListStrings : List Node → List String
  | [] => []
  | n :: ns => nodeStrings n ++ nodeListStrings ns
end

/-- Python str.strip() whitespace, ASCII part (the sources only strip
ASCII text here). -/
def isPySpace (c : Char) : Bool :=
  c == ' ' || c == '\t' || c == '\n' || c == '\r' || c == '\x0b' || c == '\x0c'

/-- Python str.strip() on character lists. -/
def charStrip (l : Chars) : Chars :=
  ((l.dropWhile isPySpace).reverse.dropWhile isPySpace).reverse

/-- Python str.strip(). -/
def pyStrip (s : String) : String :=
  ⟨charStrip s.toList⟩

/-- elem.get_text(strip=True): each descendant string stripped, empties
skipped, joined with no separator. -/
def getTextStrip (n : Node) : String :=
  String.join (((nodeStrings n).map pyStrip).filter (fun s => s ≠ ""))

/- Every element of the document in find_all(True) order (preorder),
paired with its ancestor chain, closest ancestor first.  The chain stops
below the [document] root, as get_path's walk does. -/
mutual
def collectElems (anc : List Node) : Node → List (List Node × Node)
  | .text _ => []
  | .elem t a cs =>
    (anc, Node.elem t a cs) :: collectElemsList (Node.elem t a cs :: anc) cs
def collectElemsList (anc : List Node) : List Node → List (List Node × Node)
  | [] => []
  | n :: ns => collectElems anc n ++ collectElemsList anc ns
end

def docElems (doc : List Node) : List (List Node × Node) :=
  collectElemsList [] doc

/-- One level of get_path: parent.find_all(element.name, recursive=False)
gives the same-tag direct children; the tag name is annotated with a
1-based index exactly when more than one such sibling exists.  The index
is that of the first sibling equal to the element (list.index with
BeautifulSoup equality). -/
def levelComponent (parent child : Node) : String :=
  let siblings := (childrenOf parent).filter
    (fun n => match n with
      | .elem t _ _ => t == tagOf child
      | .text _ => false)
  if siblings.length > 1 then
    let idx := (siblings.findIdx (fun n => nodeBeq n child)) + 1
    tagOf child ++ ":nth-of-type(" ++ toString idx ++ ")"
  else tagOf child

/-- get_path's upward walk: one component per ancestor level, element
replaced by its parent at each step; the walk ends at [document]. -/
def getPathParts : Node → List Node → List String
  | _, [] => []
  | e, p :: rest => levelComponent p e :: getPathParts p rest

/-- get_path (scraper.py, lines 93-105). -/
def getPath (e : Node) (anc : List Node) : String :=
  String.intercalate (" > ") ((getPathParts e anc).reverse)

/-- A dom_properties entry of extract_dom_properties. -/
structure DomProp where
  tag : String
  path : String
  attributes : List (String × String)
  text_preview : Option String
deriving Repr, DecidableEq

/-- Attribute serialization: list values are joined with single spaces,
plain values kept (str of a string is itself). -/
def flattenAttrs (attrs : List (String × AttrVal)) : List (String × String) :=
  attrs.map (fun kv =>
    (kv.1, match kv.2 with
      | .str s => s
      | .vals vs => String.intercalate (" ") vs))

/-- The per-element body of extract_dom_properties' loop. -/
def elemProps (anc : List Node) (e : Node) : DomProp :=
  let text : String := ⟨(getTextStrip e).toList.take 200⟩
  { tag := tagOf e
    path := getPath e anc
    attributes := flattenAttrs (attrsOf e)
    text_preview := if text = "" then none else some text }

/-- extract_dom_properties' loop with a fallible per-element body (the
body may raise, e.g. on a malformed attribute).  The whole loop sits in
one try/except: the first error aborts it and the except branch returns
the entries accumulated so far. -/
def extractLoop (body : List Node → Node → Except String DomProp) :
    List (List Node × Node) → List DomProp → List DomProp
  | [], acc => acc
  | (anc, e) :: rest, acc =>
    if tagOf e ≠ "" ∧ tagOf e ≠ "script" ∧ tagOf e ≠ "style" then
      match body anc e with
      | .ok r => extractLoop body rest (acc ++ [r])
      | .error _ => acc
    else extractLoop body rest acc

/-- extract_dom_properties (scraper.py, lines 88-128) with a fallible
per-element body. -/
def extract_dom_properties_with
    (body : List Node → Node → Except String DomProp) (doc : List Node) : List DomProp :=
  extractLoop body (docElems doc) []

/-- extract_dom_properties when no element raises: the per-element body
is the pure record builder. -/
def extract_dom_properties (doc : List Node) : List DomProp :=
  extract_dom_properties_with (fun anc e => .ok (elemProps anc e)) doc

/-! ## The crawl controller -/

/-- What the fetch-and-parse stage of scrape_page yields on success: the
rendered page's title, text, anchor hrefs in document order, and parsed
DOM.  A crawl is run against an oracle String to Except String Soup;
an error models any exception inside scrape_page's try (navigation
failure, timeout, parse failure). -/
structure Soup where
  title : String
  content : String
  anchorHrefs : List String
  doc : List Node

/-- A successful scrape's record (the dict built in scrape_page). -/
structure PageData where
  url : String
  title : String
  content : String
  internal_links : List String
  dom_properties : List DomProp

/-- Insert into an ascending list (insertion sort step). -/
def insertAsc (x : String) : List String → List String
  | [] => [x]
  | y :: ys => if x ≤ y then x :: y :: ys else y :: insertAsc x ys

/-- Ascending insertion sort (on the distinct elements fed to it this
computes exactly Python's sorted). -/
def sortAsc (l : List String) : List String := l.foldr insertAsc []

/-- sorted(list(set(...))): the distinct elements in ascending
lexicographic order. -/
def sortedSet (l : List String) : List String :=
  sortAsc l.dedup

def skipScheme (h : String) : Bool :=
  h.startsWith ("mailto:") || h.startsWith ("tel:") || h.startsWith ("javascript:")

/-- scrape_page (scraper.py, lines 130-183) over the fetch oracle: on
success builds the page record, deriving internal_links by filtering
mailto/tel/javascript hrefs, normalizing, keeping same-netloc links,
and sorting the deduplicated set. -/
def scrape_page (fetch : String → Except String Soup) (start url : String) :
    Except String PageData :=
  match fetch url with
  | .error e => .error ("Error scraping " ++ url ++ ": " ++ e)
  | .ok soup =>
    let kept := soup.anchorHrefs.filter (fun h => h ≠ "" && !skipScheme h)
    let normalized := kept.map (fun h => normalize_url start h)
    let internal := normalized.filter (fun n => is_internal_link start n)
    .ok { url := url
          title := soup.title
          content := soup.content
          internal_links := sortedSet internal
          dom_properties := extract_dom_properties soup.doc }

/-- An entry of self.errors. -/
structure ErrorRecord where
  url : String
  error : String
deriving Repr, DecidableEq

/-- The controller state: visited set (as the list of its distinct
members, most recent first), pending queue, page records, error
records. -/
structure CrawlState where
  visited : List String
  toVisit : List String
  data : List PageData
  errors : List ErrorRecord

/-- The enqueue discipline of crawl: for each link, append it to the
queue tail unless already visited or already queued (checks run against
the queue as it grows). -/
def enqueueLinks (visited : List String) (links toVisit : List String) : List String :=
  links.foldl (fun tv link => if link ∈ visited ∨ link ∈ tv then tv else tv ++ [link]) toVisit

/-- max_pages is not None and len(data) has reached it. -/
def budgetReached (maxPages : Option Nat) (n : Nat) : Bool :=
  match maxPages with
  | some b => decide (n ≥ b)
  | none => false

/-- The while-condition's negation: stop when the queue is empty or the
page budget is reached (max_pages None means unbounded). -/
def crawlStop (maxPages : Option Nat) (s : CrawlState) : Bool :=
  s.toVisit.isEmpty || budgetReached maxPages s.data.length

/-- One iteration of crawl's loop body, after the head url has been
popped: skip if visited; otherwise mark visited, scrape, and either
record the page and enqueue its links or record the error. -/
def crawlStep (fetch : String → Except String Soup) (start : String)
    (s : CrawlState) (url : String) (rest : List String) : CrawlState :=
  if url ∈ s.visited then { s with toVisit := rest }
  else
    let s1 : CrawlState := { s with visited := url :: s.visited, toVisit := rest }
    match scrape_page fetch start url with
    | .ok pd =>
      { s1 with data := s1.data ++ [pd]
                toVisit := enqueueLinks s1.visited pd.internal_links s1.toVisit }
    | .error e => { s1 with errors := s1.errors ++ [⟨url, e⟩] }

/-- crawl (scraper.py, lines 185-218): the loop, fuel-bounded.  Each
unit of fuel is one iteration; the loop guard is re-checked before every
pop, so every reachable loop-boundary state is crawlLoop at some fuel. -/
def crawlLoop (fetch : String → Except String Soup) (start : String)
    (maxPages : Option Nat) : Nat → CrawlState → CrawlState
  | 0, s => s
  | fuel + 1, s =>
    if crawlStop maxPages s then s
    else match s.toVisit with
      | [] => s
      | url :: rest => crawlLoop fetch start maxPages fuel (crawlStep fetch start s url rest)

/-- The initial frontier: the seed pending, nothing visited. -/
def initState (start : String) : CrawlState := ⟨[], [start], [], []⟩

/-- A whole crawl from the seed. -/
def crawlRun (fetch : String → Except String Soup) (start : String)
    (maxPages : Option Nat) (fuel : Nat) : CrawlState :=
  crawlLoop fetch start maxPages fuel (initState start)

/-- Modelled from the spec (4.4, 8): the breadth-first visit order over
an abstract document graph.  links u is the ordered internal-link list
of page u, or none when its fetch fails.  Dequeue the head of pending;
skip if visited; else mark visited; on success append the url to the
record order and append each discovered link not in visited and not in
pending to the tail; on failure record nothing.  Stop when pending is
empty or the budget is reached. -/
def bfsOrder (links : String → Option (List String)) (maxPages : Option Nat) :
    Nat → List String → List String → List String → List String
  | 0, _, _, order => order
  | fuel + 1, visited, pending, order =>
    if pending.isEmpty || budgetReached maxPages order.length then order
    else match pending with
      | [] => order
      | url :: rest =>
        if url ∈ visited then bfsOrder links maxPages fuel visited rest order
        else match links url with
          | some ls =>
            bfsOrder links maxPages fuel (url :: visited)
              (ls.foldl (fun q l => if l ∈ url :: visited ∨ l ∈ q then q else q ++ [l]) rest)
              (order ++ [url])
          | none => bfsOrder links maxPages fuel (url :: visited) rest order

/-! ## Output sinks -/

/-- A JSON value (what json.dump serializes). -/
inductive JVal where
  | str (s : String)
  | arr (xs : List JVal)
  | obj (fields : List (String × JVal))
  | null

/-- The JSON object save_to_json emits for one dom_properties entry. -/
def domPropJson (d : DomProp) : JVal :=
  .obj [("tag", .str d.tag), ("path", .str d.path),
        ("attributes", .obj (d.attributes.map (fun kv => (kv.1, JVal.str kv.2)))),
        ("text_preview", match d.text_preview with
          | some t => .str t
          | none => .null)]

/-- The JSON object save_to_json emits for one page record (url, title,
internal_links, dom_properties; content excluded). -/
def pageJson (it : PageData) : JVal :=
  .obj [("url", .str it.url), ("title", .str it.title),
        ("internal_links", .arr (it.internal_links.map JVal.str)),
        ("dom_properties", .arr (it.dom_properties.map domPropJson))]

/-- WebScraper.save_to_json (scraper.py, lines 232-249): the value
written to the JSON file. -/
def save_to_json_data (data : List PageData) : JVal :=
  .arr (data.map pageJson)

/-- A scraped item as site_spider.SiteSpider.parse yields it, restricted
to the fields JSONPipeline reads; internal_links is the single
semicolon-joined string. -/
structure SpiderItem where
  url : String
  title : String
  internal_links : String

/-- site_spider.py line 93: internal links serialized by joining the
sorted deduplicated list with a semicolon and a space. -/
def joinLinksField (links : List String) : String :=
  ⟨pyJoinChars (';' :: ' ' :: []) ((sortedSet links).map String.toList)⟩

/-- pipelines.py lines 52-56: recover the link list by splitting on
every semicolon, stripping whitespace, dropping empties. -/
def parseLinksField (s : String) : List String :=
  (((pySplitChar ';' s.toList).map (fun g => (⟨charStrip g⟩ : String)))).filter
    (fun l => l ≠ "")

/-- The JSON object JSONPipeline.close_spider builds for one item:
url, title, the recovered link array, and an always-empty
dom_properties array. -/
def pipelineItemJson (it : SpiderItem) : JVal :=
  .obj [("url", .str it.url), ("title", .str it.title),
        ("internal_links", .arr ((parseLinksField it.internal_links).map JVal.str)),
        ("dom_properties", .arr [])]

/-- pipelines.JSONPipeline.close_spider (pipelines.py, lines 44-71):
the value written when items is non-empty (with no items, nothing is
written at all). -/
def jsonPipelineData (items : List SpiderItem) : JVal :=
  .arr (items.map pipelineItemJson)

/-- Lookup of a key in a JSON object (none on non-objects). -/
def objLookup (k : String) : JVal → Option JVal
  | .obj fields => List.lookup k fields
  | _ => none

/-- The entries of a JSON array (none on non-arrays). -/
def arrEntries : JVal → Option (List JVal)
  | .arr xs => some xs
  | _ => none

/-! ## Invariants and fixtures -/

/-- The controller invariant preserved by every loop iteration: the
visited list and the queue have no duplicates, visited and pending are
disjoint, every visited URL is accounted for by exactly one page record
or one error record, and the page budget is respected. -/
def CrawlInv (maxPages : Option Nat) (s : CrawlState) : Prop :=
  s.visited.Nodup ∧ s.toVisit.Nodup ∧ (∀ u ∈ s.visited, u ∉ s.toVisit) ∧
  s.visited.length = s.data.length + s.errors.length ∧
  (∀ b, maxPages = some b → s.data.length ≤ b)

/-- A two-item document: two li siblings with distinct texts under one
ul (spec scenario for structural paths). -/
def twoLiDoc (a b : String) : List Node :=
  [Node.elem ("html") [] [Node.elem ("body") [] [Node.elem ("ul") []
    [Node.elem ("li") [] [Node.text a], Node.elem ("li") [] [Node.text b]]]]]

/-- A concrete fetch oracle: the seed links to x and to a failing page
y; x links back; y times out. -/
def demoFetch : String → Except String Soup := fun u =>
  if u = "http://a.test/" then
    .ok { title := "A", content := "seed", anchorHrefs := ["/x", "/y", "mailto:b@c.d"], doc := [] }
  else if u = "http://a.test/x" then
    .ok { title := "X", content := "xx", anchorHrefs := ["/"], doc := [] }
  else .error ("timeout")

/-- A per-element body that raises on b-tagged elements (modelling a
malformed attribute) and otherwise behaves like the loop body. -/
def failOnB : List Node → Node → Except String DomProp := fun anc e =>
  if tagOf e = "b" then .error ("malformed attribute") else .ok (elemProps anc e)

/-- A three-element document whose middle element makes failOnB raise. -/
def abcDoc : List Node :=
  [Node.elem ("a") [] [], Node.elem ("b") [] [], Node.elem ("c") [] []]

/-- The abstract document graph a fetch oracle induces: the ordered
internal-link list of each page, or none where scraping fails. -/
def linksOf (fetch : String → Except String Soup) (start : String) :
    String → Option (List String) :=
  fun u => (scrape_page fetch start u).toOption.map (fun p => p.internal_links)

/-! ### Predicates for the normalize_url idempotence analysis -/

/-- No tab, CR or LF anywhere (urlsplit's unsafe-byte removal is a
no-op). -/
def CleanChars (l : Chars) : Prop := ∀ c ∈ l, isUnsafeByte c = false

/-- No '/', '?' or '#' (the string parses wholly into a netloc). -/
def NoDelimChars (l : Chars) : Prop := ∀ c ∈ l, isNetlocDelim c = false

/-- A scheme as urlsplit outputs it: nonempty, leading ASCII letter,
scheme characters only, already lowercase. -/
def ValidScheme (t : Chars) : Prop :=
  (∃ c cs, t = c :: cs ∧ c.isAlpha = true) ∧ (∀ c ∈ t, isSchemeChar c = true) ∧
    t.map Char.toLower = t

/-- The segment after the last '/' (the whole string when there is no
'/'): what _splitparams inspects. -/
def afterLastSlash (l : Chars) : Chars :=
  l.reverse.takeWhile (fun c => !(c == '/'))

/-- The path has no parameters to split: no ';' after the last '/'. -/
def NoParams (l : Chars) : Prop := ';' ∉ afterLastSlash l

def optQuery (q : Chars) : Chars := if q = [] then [] else '?' :: q

def optFrag (f : Chars) : Chars := if f = [] then [] else '#' :: f

/-- The canonical shape of a normalize_url output: an explicit
lowercase scheme, "://", a delimiter-free netloc, a path free of '?'
and '#' whose parsed remainder has no parameters, and an optional
query; everything free of unsafe bytes. -/
def GoodForm (S t N P Q : Chars) : Prop :=
  S = t ++ ':' :: '/' :: '/' :: (N ++ P ++ optQuery Q) ∧
  ValidScheme t ∧ NoDelimChars N ∧ CleanChars N ∧
  ('?' ∉ P) ∧ ('#' ∉ P) ∧ CleanChars P ∧
  ('#' ∉ Q) ∧ CleanChars Q ∧
  NoParams (P.dropWhile (fun c => !isNetlocDelim c))

/-! ## Theorems -/

/-- C1: normalize_url resolves every href against the scraper's
start_url, never against the page that referenced it.  Scraping the page
http://h/sub/ (seed http://h/) that links to the relative href x
produces the internal link http://h/x, resolved against the seed,
whereas resolution against the referencing page (what the spec
requires, exhibited by normalize_url with the page as its base) yields
the different URL http://h/sub/x. -/
theorem normalize_resolves_against_seed_not_page :
    (scrape_page
        (fun u => if u = "http://h/sub/" then
          .ok { title := "T", content := "", anchorHrefs := ["x"], doc := [] }
        else .error ("404"))
        ("http://h/") ("http://h/sub/")).toOption.map (fun p => p.internal_links) =
      some [("http://h/x")] ∧
    normalize_url ("http://h/sub/") ("x") = ("http://h/sub/x") ∧
    ("http://h/x" : String) ≠ ("http://h/sub/x") :=
  ⟨by decide, by decide, by decide⟩

theorem enqueueLinks_nil (visited tv : List String) : enqueueLinks visited [] tv = tv := rfl

theorem enqueueLinks_cons (visited : List String) (l : String) (ls tv : List String) :
    enqueueLinks visited (l :: ls) tv =
      enqueueLinks visited ls (if l ∈ visited ∨ l ∈ tv then tv else tv ++ [l]) := rfl

/-- Anything in the queue after an enqueue pass was queued before or is
not visited. -/
theorem mem_enqueueLinks (visited links : List String) :
    ∀ tv u, u ∈ enqueueLinks visited links tv → u ∈ tv ∨ u ∉ visited := by
  induction links with
  | nil => intro tv u h; exact Or.inl h
  | cons l ls ih =>
    intro tv u h
    rw [enqueueLinks_cons] at h
    by_cases hc : l ∈ visited ∨ l ∈ tv
    · rw [if_pos hc] at h; exact ih tv u h
    · rw [if_neg hc] at h
      rcases ih _ u h with h1 | h2
      · rcases List.mem_append.mp h1 with h3 | h4
        · exact Or.inl h3
        · have : u = l := by simpa using h4
          subst this
          exact Or.inr (fun hv => hc (Or.inl hv))
      · exact Or.inr h2

/-- The enqueue discipline preserves queue distinctness. -/
theorem nodup_enqueueLinks (visited links : List String) :
    ∀ tv, tv.Nodup → (enqueueLinks visited links tv).Nodup := by
  induction links with
  | nil => intro tv h; exact h
  | cons l ls ih =>
    intro tv h
    rw [enqueueLinks_cons]
    by_cases hc : l ∈ visited ∨ l ∈ tv
    · rw [if_pos hc]; exact ih tv h
    · rw [if_neg hc]
      refine ih _ ?_
      have hl : l ∉ tv := fun hm => hc (Or.inr hm)
      simp [List.nodup_append, h, hl]

/-- One loop iteration preserves the controller invariant. -/
theorem crawlStep_inv (fetch : String → Except String Soup) (start : String)
    (maxPages : Option Nat) (s : CrawlState) (url : String) (rest : List String)
    (hInv : CrawlInv maxPages s) (htv : s.toVisit = url :: rest)
    (hstop : crawlStop maxPages s = false) :
    CrawlInv maxPages (crawlStep fetch start s url rest) := by
  obtain ⟨hv, ht, hd, hl, hb⟩ := hInv
  rw [htv] at ht
  have hrest : rest.Nodup := ht.of_cons
  have hurlrest : url ∉ rest := (List.nodup_cons.mp ht).1
  have hbudget : ∀ b, maxPages = some b → s.data.length < b := by
    intro b hbq
    subst hbq
    unfold crawlStop budgetReached at hstop
    simp only [Bool.or_eq_false_iff, decide_eq_false_iff_not, not_le] at hstop
    exact hstop.2
  unfold crawlStep
  by_cases hvis : url ∈ s.visited
  · rw [if_pos hvis]
    refine ⟨hv, hrest, ?_, hl, hb⟩
    intro u hu hr
    exact hd u hu (by rw [htv]; exact List.mem_cons_of_mem _ hr)
  · rw [if_neg hvis]
    cases hscrape : scrape_page fetch start url with
    | ok pd =>
      refine ⟨List.nodup_cons.mpr ⟨hvis, hv⟩, nodup_enqueueLinks _ _ rest hrest, ?_, ?_, ?_⟩
      · intro u hu hmem
        rcases mem_enqueueLinks _ _ rest u hmem with h1 | h2
        · rcases List.mem_cons.mp hu with rfl | hu2
          · exact hurlrest h1
          · exact hd u hu2 (by rw [htv]; exact List.mem_cons_of_mem _ h1)
        · exact h2 hu
      · simp only [List.length_cons, List.length_append, List.length_nil, hl]
        omega
      · intro b hbq
        simp only [List.length_append, List.length_cons, List.length_nil]
        have := hbudget b hbq
        omega
    | error e =>
      refine ⟨List.nodup_cons.mpr ⟨hvis, hv⟩, hrest, ?_, ?_, ?_⟩
      · intro u hu hr
        rcases List.mem_cons.mp hu with rfl | hu2
        · exact hurlrest hr
        · exact hd u hu2 (by rw [htv]; exact List.mem_cons_of_mem _ hr)
      · simp only [List.length_cons, List.length_append, List.length_nil, hl]
        omega
      · intro b hbq
        exact le_of_lt (Nat.lt_of_lt_of_le (Nat.lt_succ_self _) (hbudget b hbq))

/-- The controller invariant is preserved by any number of iterations. -/
theorem crawlLoop_inv (fetch : String → Except String Soup) (start : String)
    (maxPages : Option Nat) :
    ∀ fuel s, CrawlInv maxPages s →
      CrawlInv maxPages (crawlLoop fetch start maxPages fuel s) := by
  intro fuel
  induction fuel with
  | zero => intro s h; exact h
  | succ n ih =>
    intro s h
    cases hstop : crawlStop maxPages s with
    | true => simp only [crawlLoop, hstop, if_true]; exact h
    | false =>
      cases htv : s.toVisit with
      | nil => simp only [crawlLoop, hstop, htv, Bool.false_eq_true, if_false]; exact h
      | cons url rest =>
        simp only [crawlLoop, hstop, htv, Bool.false_eq_true, if_false]
        exact ih _ (crawlStep_inv fetch start maxPages s url rest h htv hstop)

/-- The initial frontier satisfies the invariant. -/
theorem initState_inv (start : String) (maxPages : Option Nat) :
    CrawlInv maxPages (initState start) := by
  refine ⟨List.nodup_nil, List.nodup_singleton _, ?_, rfl, ?_⟩
  · intro u hu; cases hu
  · intro b _; exact Nat.zero_le b

/-- The controller invariant holds of every reachable crawl state. -/
theorem crawlRun_inv (fetch : String → Except String Soup) (start : String)
    (maxPages : Option Nat) (fuel : Nat) :
    CrawlInv maxPages (crawlRun fetch start maxPages fuel) :=
  crawlLoop_inv fetch start maxPages fuel (initState start) (initState_inv start maxPages)

/-- C2: with a page budget B the crawl collects at most B page records,
and, with any budget setting, every visited URL is accounted for by
exactly one page record or one error record:
len(visited) = len(pageRecords) + len(errorRecords). -/
theorem crawl_budget_and_accounting (fetch : String → Except String Soup)
    (start : String) (b fuel : Nat) (maxPages : Option Nat) :
    (crawlRun fetch start (some b) fuel).data.length ≤ b ∧
    (crawlRun fetch start maxPages fuel).visited.length =
      (crawlRun fetch start maxPages fuel).data.length +
        (crawlRun fetch start maxPages fuel).errors.length :=
  ⟨(crawlRun_inv fetch start (some b) fuel).2.2.2.2 b rfl,
   (crawlRun_inv fetch start maxPages fuel).2.2.2.1⟩

/-- C3: at every loop-boundary state of the crawl (crawlLoop stops
exactly at iteration boundaries, so these are all states outside the
dequeue-and-mark step), the visited set and the pending queue share no
URL, and the pending queue holds no duplicates (so a URL can sit in
pending at most once before being dequeued and marked visited). -/
theorem crawl_frontier_disjoint (fetch : String → Except String Soup)
    (start : String) (maxPages : Option Nat) (fuel : Nat) :
    (crawlRun fetch start maxPages fuel).visited.inter
        (crawlRun fetch start maxPages fuel).toVisit = [] ∧
    (crawlRun fetch start maxPages fuel).toVisit.Nodup ∧
    (crawlRun fetch start maxPages fuel).visited.Nodup := by
  obtain ⟨hv, ht, hd, _, _⟩ := crawlRun_inv fetch start maxPages fuel
  refine ⟨?_, ht, hv⟩
  rw [List.eq_nil_iff_forall_not_mem]
  intro x hx
  have hx2 : x ∈ (crawlRun fetch start maxPages fuel).visited ∧
      x ∈ (crawlRun fetch start maxPages fuel).toVisit := by
    simpa [List.inter, List.mem_filter] using hx
  exact hd x hx2.1 hx2.2

/-- C4: when scraping a queued, unvisited URL fails, the iteration
appends exactly one error record carrying that URL, appends no page
record, enqueues nothing, and the loop carries on with the remaining
queue. -/
theorem crawl_failure_appends_one_error (fetch : String → Except String Soup)
    (start : String) (maxPages : Option Nat) (fuel : Nat) (s : CrawlState)
    (url msg : String) (rest : List String)
    (htv : s.toVisit = url :: rest) (hnv : url ∉ s.visited)
    (hfail : scrape_page fetch start url = .error msg)
    (hstop : crawlStop maxPages s = false) :
    crawlLoop fetch start maxPages (fuel + 1) s =
      crawlLoop fetch start maxPages fuel
        { visited := url :: s.visited, toVisit := rest,
          data := s.data, errors := s.errors ++ [⟨url, msg⟩] } := by
  have hstep : crawlStep fetch start s url rest =
      { visited := url :: s.visited, toVisit := rest,
        data := s.data, errors := s.errors ++ [⟨url, msg⟩] } := by
    unfold crawlStep
    rw [if_neg hnv, hfail]
  simp only [crawlLoop, hstop, Bool.false_eq_true, if_false, htv, hstep]

/-- Witness for C4: crawling from the failing page as seed, one step
records exactly one timeout error for it and continues on an empty
queue. -/
theorem crawl_failure_appends_one_error_witness :
    (initState ("http://a.test/y")).toVisit = ("http://a.test/y") :: [] ∧
    ("http://a.test/y") ∉ (initState ("http://a.test/y")).visited ∧
    scrape_page demoFetch ("http://a.test/") ("http://a.test/y") =
      .error ("Error scraping http://a.test/y: timeout") ∧
    crawlStop none (initState ("http://a.test/y")) = false ∧
    crawlLoop demoFetch ("http://a.test/") none 1 (initState ("http://a.test/y")) =
      crawlLoop demoFetch ("http://a.test/") none 0
        { visited := [("http://a.test/y")], toVisit := [], data := [],
          errors := [⟨("http://a.test/y"), ("Error scraping http://a.test/y: timeout")⟩] } :=
  ⟨rfl, by decide, rfl, rfl,
   crawl_failure_appends_one_error demoFetch ("http://a.test/") none 0
     (initState ("http://a.test/y")) ("http://a.test/y")
     ("Error scraping http://a.test/y: timeout") [] rfl (by decide) rfl rfl⟩

/-- A successful scrape's record carries the url it was asked for. -/
theorem scrape_page_url (fetch : String → Except String Soup) (start url : String)
    (pd : PageData) (h : scrape_page fetch start url = .ok pd) : pd.url = url := by
  unfold scrape_page at h
  cases hf : fetch url with
  | ok soup => rw [hf] at h; cases h; rfl
  | error e => rw [hf] at h; cases h

/-- The crawl loop's page-record url sequence is the spec's
breadth-first order, from any intermediate state. -/
theorem crawlLoop_bfs (fetch : String → Except String Soup) (start : String)
    (maxPages : Option Nat) :
    ∀ fuel (s : CrawlState),
      (crawlLoop fetch start maxPages fuel s).data.map (fun d => d.url) =
        bfsOrder (linksOf fetch start) maxPages fuel s.visited s.toVisit
          (s.data.map (fun d => d.url)) := by
  intro fuel
  induction fuel with
  | zero => intro s; rfl
  | succ n ih =>
    intro s
    cases hstop : crawlStop maxPages s with
    | true =>
      have hg : (s.toVisit.isEmpty || budgetReached maxPages
          (s.data.map (fun d => d.url)).length) = true := by
        rw [List.length_map]; exact hstop
      simp only [crawlLoop, bfsOrder, hstop, hg, if_true]
    | false =>
      cases htv : s.toVisit with
      | nil =>
        unfold crawlStop at hstop
        rw [htv] at hstop
        simp at hstop
      | cons url rest =>
        have hb : budgetReached maxPages s.data.length = false := by
          unfold crawlStop at hstop
          rw [htv] at hstop
          simpa using hstop
        simp only [crawlLoop, hstop, Bool.false_eq_true, if_false, htv]
        simp only [bfsOrder, htv, List.isEmpty_cons, List.length_map, hb,
          Bool.false_or, Bool.false_eq_true, if_false]
        by_cases hvis : url ∈ s.visited
        · have hstep : crawlStep fetch start s url rest = { s with toVisit := rest } := by
            unfold crawlStep
            rw [if_pos hvis]
          rw [hstep, if_pos hvis]
          exact ih { s with toVisit := rest }
        · rw [if_neg hvis]
          cases hscrape : scrape_page fetch start url with
          | ok pd =>
            have hlink : linksOf fetch start url = some pd.internal_links := by
              unfold linksOf; rw [hscrape]; rfl
            rw [hlink]
            have hstep : crawlStep fetch start s url rest =
                { visited := url :: s.visited,
                  toVisit := enqueueLinks (url :: s.visited) pd.internal_links rest,
                  data := s.data ++ [pd], errors := s.errors } := by
              unfold crawlStep
              rw [if_neg hvis, hscrape]
            rw [hstep]
            have := ih { visited := url :: s.visited,
                         toVisit := enqueueLinks (url :: s.visited) pd.internal_links rest,
                         data := s.data ++ [pd], errors := s.errors }
            rw [this]
            simp only [List.map_append, List.map_cons, List.map_nil]
            rw [scrape_page_url fetch start url pd hscrape]
            rfl
          | error e =>
            have hlink : linksOf fetch start url = none := by
              unfold linksOf; rw [hscrape]; rfl
            rw [hlink]
            have hstep : crawlStep fetch start s url rest =
                { visited := url :: s.visited, toVisit := rest,
                  data := s.data, errors := s.errors ++ [⟨url, e⟩] } := by
              unfold crawlStep
              rw [if_neg hvis, hscrape]
            rw [hstep]
            exact ih { visited := url :: s.visited, toVisit := rest,
                       data := s.data, errors := s.errors ++ [⟨url, e⟩] }

/-- C5: single-worker determinism of the crawl order.  The page-record
sequence of any crawl is a function of the document graph alone: its url
sequence equals the breadth-first order obtained by appending each
page's newly discovered, not-yet-seen internal links to the tail of the
pending queue (bfsOrder); two runs over the same graph therefore
produce identical pageRecords sequences. -/
theorem crawl_pageRecords_bfs (fetch : String → Except String Soup)
    (start : String) (maxPages : Option Nat) (fuel : Nat) :
    (crawlRun fetch start maxPages fuel).data.map (fun d => d.url) =
      bfsOrder (linksOf fetch start) maxPages fuel [] [start] [] :=
  crawlLoop_bfs fetch start maxPages fuel (initState start)

/-- C6 counterexample: for two li siblings under one ul the first li's
path also carries a sibling index (li:nth-of-type(1)), so the two paths
do not differ only by an index suffix added on the second li: there is
no common prefix p with first path p ++ li and second path
p ++ li:nth-of-type(2). -/
theorem two_li_first_path_also_indexed :
    ((extract_dom_properties (twoLiDoc ("first") ("second"))).map (fun d => d.path))[3]? =
      some ("body > ul > li:nth-of-type(1)") ∧
    ((extract_dom_properties (twoLiDoc ("first") ("second"))).map (fun d => d.path))[4]? =
      some ("body > ul > li:nth-of-type(2)") ∧
    ¬ ∃ p : String,
      ((extract_dom_properties (twoLiDoc ("first") ("second"))).map (fun d => d.path))[3]? =
        some (p ++ ("li")) ∧
      ((extract_dom_properties (twoLiDoc ("first") ("second"))).map (fun d => d.path))[4]? =
        some (p ++ ("li:nth-of-type(2)")) := by
  refine ⟨by decide, by decide, ?_⟩
  rintro ⟨p, h1, _⟩
  have hv : ((extract_dom_properties (twoLiDoc ("first") ("second"))).map
      (fun d => d.path))[3]? = some ("body > ul > li:nth-of-type(1)") := by decide
  rw [hv] at h1
  have h4 : ("body > ul > li:nth-of-type(1)" : String) = p ++ ("li") :=
    Option.some.inj h1
  have h5 := congrArg (fun s : String => s.data.getLast?) h4
  simp at h5

/-- C6 amended: in a document with two li siblings of distinct content
under one ul, the extracted paths annotate both li elements with their
1-based sibling index (the annotation appears exactly when more than one
same-tag sibling shares the parent), so the two paths differ only in the
index value, 1 versus 2; the ancestors contribute unannotated tag names
and the walk stops below the document root. -/
theorem two_li_paths (a b : String) (hab : a ≠ b) :
    (extract_dom_properties (twoLiDoc a b)).map (fun d => d.path) =
      [("" : String), ("body"), ("body > ul"),
       ("body > ul > li:nth-of-type(1)"), ("body > ul > li:nth-of-type(2)")] := by
  have hab2 : (a == b) = false := by simp [hab]
  simp [extract_dom_properties, extract_dom_properties_with, docElems, collectElemsList,
        collectElems, extractLoop, elemProps, getPath, getPathParts, levelComponent,
        childrenOf, tagOf, attrsOf, nodeBeq, nodeListBeq, twoLiDoc, List.findIdx_cons,
        flattenAttrs, hab2, String.intercalate]
  decide

/-- Witness for C6 (amended) at concrete li contents. -/
theorem two_li_paths_witness :
    ("first" : String) ≠ ("second") ∧
    (extract_dom_properties (twoLiDoc ("first") ("second"))).map (fun d => d.path) =
      [("" : String), ("body"), ("body > ul"),
       ("body > ul > li:nth-of-type(1)"), ("body > ul > li:nth-of-type(2)")] :=
  ⟨by decide, two_li_paths ("first") ("second") (by decide)⟩

/-- C7 counterexample: with the middle element of abcDoc raising
(malformed attribute), the well-formed element after it is absent from
the returned inventory; only the prefix before the failure is kept. -/
theorem extract_drops_elements_after_failure :
    extract_dom_properties_with failOnB abcDoc =
      [elemProps [] (Node.elem ("a") [] [])] ∧
    elemProps [] (Node.elem ("c") [] []) ∉ extract_dom_properties_with failOnB abcDoc := by
  refine ⟨by decide, ?_⟩
  intro hmem
  have h1 : extract_dom_properties_with failOnB abcDoc =
      [elemProps [] (Node.elem ("a") [] [])] := by decide
  rw [h1] at hmem
  have h2 : elemProps [] (Node.elem ("c") [] []) = elemProps [] (Node.elem ("a") [] []) := by
    simpa using hmem
  have h3 := congrArg DomProp.tag h2
  simp [elemProps, tagOf] at h3

/-- The extraction loop runs up to the first failing element and
returns what it accumulated before it. -/
theorem extractLoop_stops_at_failure (body : List Node → Node → Except String DomProp)
    (x : List Node × Node) (post : List (List Node × Node)) (msg : String)
    (hxtag : tagOf x.2 ≠ "" ∧ tagOf x.2 ≠ "script" ∧ tagOf x.2 ≠ "style")
    (hfail : body x.1 x.2 = .error msg) :
    ∀ pre acc,
      (∀ q ∈ pre, (tagOf q.2 ≠ "" ∧ tagOf q.2 ≠ "script" ∧ tagOf q.2 ≠ "style") →
        ∃ r, body q.1 q.2 = .ok r) →
      extractLoop body (pre ++ x :: post) acc = extractLoop body pre acc := by
  have hcons : ∀ anc e rest acc, extractLoop body ((anc, e) :: rest) acc =
      if tagOf e ≠ "" ∧ tagOf e ≠ "script" ∧ tagOf e ≠ "style" then
        match body anc e with
        | .ok r => extractLoop body rest (acc ++ [r])
        | .error _ => acc
      else extractLoop body rest acc := fun _ _ _ _ => rfl
  intro pre
  induction pre with
  | nil =>
    intro acc _
    obtain ⟨anc, e⟩ := x
    rw [List.nil_append, hcons, if_pos hxtag, hfail]
    rfl
  | cons q qs ih =>
    intro acc hq
    obtain ⟨anc, e⟩ := q
    by_cases hqt : tagOf e ≠ "" ∧ tagOf e ≠ "script" ∧ tagOf e ≠ "style"
    · obtain ⟨r, hr⟩ := hq (anc, e) (List.mem_cons_self _ _) hqt
      rw [List.cons_append, hcons, hcons, if_pos hqt, if_pos hqt, hr]
      exact ih (acc ++ [r]) (fun p hp => hq p (List.mem_cons_of_mem _ hp))
    · rw [List.cons_append, hcons, hcons, if_neg hqt, if_neg hqt]
      exact ih acc (fun p hp => hq p (List.mem_cons_of_mem _ hp))

/-- C7 amended: when the per-element body raises on one element of the
document, extraction does not abort the page, but it returns only the
inventory of the elements before the failing one: the loop over the
remaining elements is abandoned (the try/except wraps the whole loop),
so well-formed elements after the failure are dropped. -/
theorem extract_prefix_on_failure (body : List Node → Node → Except String DomProp)
    (doc : List Node) (pre post : List (List Node × Node)) (x : List Node × Node)
    (msg : String)
    (hsplit : docElems doc = pre ++ x :: post)
    (hxtag : tagOf x.2 ≠ "" ∧ tagOf x.2 ≠ "script" ∧ tagOf x.2 ≠ "style")
    (hfail : body x.1 x.2 = .error msg)
    (hpre : ∀ q ∈ pre, (tagOf q.2 ≠ "" ∧ tagOf q.2 ≠ "script" ∧ tagOf q.2 ≠ "style") →
      ∃ r, body q.1 q.2 = .ok r) :
    extract_dom_properties_with body doc = extractLoop body pre [] := by
  unfold extract_dom_properties_with
  rw [hsplit]
  exact extractLoop_stops_at_failure body x post msg hxtag hfail pre [] hpre

/-- Witness for C7 (amended) on abcDoc with the failing middle
element. -/
theorem extract_prefix_on_failure_witness :
    docElems abcDoc = [([], Node.elem ("a") [] [])] ++
      ([], Node.elem ("b") [] []) :: [([], Node.elem ("c") [] [])] ∧
    failOnB [] (Node.elem ("b") [] []) = .error ("malformed attribute") ∧
    extract_dom_properties_with failOnB abcDoc =
      extractLoop failOnB [([], Node.elem ("a") [] [])] [] ∧
    extractLoop failOnB [([], Node.elem ("a") [] [])] [] =
      [elemProps [] (Node.elem ("a") [] [])] := by
  refine ⟨rfl, rfl, ?_, by decide⟩
  exact extract_prefix_on_failure failOnB abcDoc
    [([], Node.elem ("a") [] [])] [([], Node.elem ("c") [] [])]
    ([], Node.elem ("b") [] []) ("malformed attribute") rfl
    (by refine ⟨?_, ?_, ?_⟩ <;> decide) rfl
    (by
      intro q hq _
      have hqa : q = ([], Node.elem ("a") [] []) := by simpa using hq
      subst hqa
      exact ⟨elemProps [] (Node.elem ("a") [] []), rfl⟩)

/-- C8: the structured JSON exports.  The standalone exporter emits one
object per page record with exactly the url, title, internal_links (an
array of strings) and dom_properties (the record's element inventory,
each entry an object with tag, path, attributes, text_preview).  The
concurrent pipeline emits one object per item with the same four keys,
internal_links recovered by splitting the serialized field, and
dom_properties the empty array (spider items carry no element
inventory). -/
theorem json_export_shape (data : List PageData) (items : List SpiderItem) :
    (∃ xs, save_to_json_data data = .arr xs ∧ xs.length = data.length ∧
      ∀ k : Nat, xs[k]? = (data[k]?).map pageJson) ∧
    (∀ it : PageData,
      objLookup ("url") (pageJson it) = some (.str it.url) ∧
      objLookup ("title") (pageJson it) = some (.str it.title) ∧
      objLookup ("internal_links") (pageJson it) =
        some (.arr (it.internal_links.map JVal.str)) ∧
      objLookup ("dom_properties") (pageJson it) =
        some (.arr (it.dom_properties.map domPropJson))) ∧
    (∀ d : DomProp,
      objLookup ("tag") (domPropJson d) = some (.str d.tag) ∧
      objLookup ("path") (domPropJson d) = some (.str d.path) ∧
      objLookup ("attributes") (domPropJson d) =
        some (.obj (d.attributes.map (fun kv => (kv.1, JVal.str kv.2)))) ∧
      objLookup ("text_preview") (domPropJson d) =
        some (match d.text_preview with
          | some t => .str t
          | none => .null)) ∧
    (∃ ys, jsonPipelineData items = .arr ys ∧ ys.length = items.length ∧
      ∀ k : Nat, ys[k]? = (items[k]?).map pipelineItemJson) ∧
    (∀ it : SpiderItem,
      objLookup ("url") (pipelineItemJson it) = some (.str it.url) ∧
      objLookup ("title") (pipelineItemJson it) = some (.str it.title) ∧
      objLookup ("internal_links") (pipelineItemJson it) =
        some (.arr ((parseLinksField it.internal_links).map JVal.str)) ∧
      objLookup ("dom_properties") (pipelineItemJson it) = some (.arr [])) := by
  refine ⟨⟨data.map pageJson, rfl, List.length_map _ _, fun k => ?_⟩,
    fun it => ⟨rfl, rfl, rfl, rfl⟩,
    fun d => ⟨rfl, rfl, rfl, rfl⟩,
    ⟨items.map pipelineItemJson, rfl, List.length_map _ _, fun k => ?_⟩,
    fun it => ⟨rfl, rfl, rfl, rfl⟩⟩
  · exact List.getElem?_map pageJson data k
  · exact List.getElem?_map pipelineItemJson items k

/-- Splitting a separator-free list yields one group. -/
theorem pySplitAux_no_sep (sep : Char) :
    ∀ l : Chars, sep ∉ l → ∀ acc, pySplitAux sep l acc = [acc.reverse ++ l] := by
  intro l
  induction l with
  | nil => intro _ acc; simp [pySplitAux]
  | cons c cs ih =>
    intro h acc
    have hc : (c == sep) = false := by
      simp only [beq_eq_false_iff_ne, ne_eq]
      rintro rfl
      exact h (List.mem_cons_self _ _)
    rw [pySplitAux, if_neg (by simp [hc])]
    rw [ih (fun hm => h (List.mem_cons_of_mem _ hm)) (c :: acc)]
    simp

/-- Splitting around the first separator detaches the leading group. -/
theorem pySplitAux_append_sep (sep : Char) :
    ∀ l : Chars, sep ∉ l → ∀ acc r,
      pySplitAux sep (l ++ sep :: r) acc = (acc.reverse ++ l) :: pySplitAux sep r [] := by
  intro l
  induction l with
  | nil =>
    intro _ acc r
    simp [pySplitAux]
  | cons c cs ih =>
    intro h acc r
    have hc : (c == sep) = false := by
      simp only [beq_eq_false_iff_ne, ne_eq]
      rintro rfl
      exact h (List.mem_cons_self _ _)
    rw [List.cons_append, pySplitAux, if_neg (by simp [hc])]
    rw [ih (fun hm => h (List.mem_cons_of_mem _ hm)) (c :: acc) r]
    simp

/-- Splitting the semicolon-space join of semicolon-free groups
recovers the groups, each non-leading group carrying the pad space. -/
theorem split_joinChars :
    ∀ (gs : List Chars) (g : Chars), ';' ∉ g → (∀ x ∈ gs, ';' ∉ x) → ∀ acc,
      pySplitAux ';' (pyJoinChars (';' :: ' ' :: []) (g :: gs)) acc =
        (acc.reverse ++ g) :: gs.map (fun x => ' ' :: x) := by
  intro gs
  induction gs with
  | nil =>
    intro g hg _ acc
    rw [show pyJoinChars (';' :: ' ' :: []) [g] = g from rfl]
    rw [pySplitAux_no_sep ';' g hg acc]
    simp
  | cons m ms ih =>
    intro g hg hgs acc
    rw [show pyJoinChars (';' :: ' ' :: []) (g :: m :: ms) =
        g ++ ';' :: (' ' :: pyJoinChars (';' :: ' ' :: []) (m :: ms)) from by
      simp [pyJoinChars]]
    rw [pySplitAux_append_sep ';' g hg acc]
    rw [show pySplitAux ';' (' ' :: pyJoinChars (';' :: ' ' :: []) (m :: ms)) [] =
        pySplitAux ';' (pyJoinChars (';' :: ' ' :: []) (m :: ms)) [' '] from by
      rw [pySplitAux, if_neg (by decide)]]
    rw [ih m (hgs m (List.mem_cons_self _ _)) (fun x hx => hgs x (List.mem_cons_of_mem _ hx)) [' ']]
    simp

/-- Stripping ignores a leading space. -/
theorem charStrip_space_cons (m : Chars) : charStrip (' ' :: m) = charStrip m := by
  unfold charStrip
  rw [List.dropWhile_cons]
  simp [isPySpace]

theorem mem_insertAsc (x y : String) : ∀ l, y ∈ insertAsc x l ↔ y = x ∨ y ∈ l := by
  intro l
  induction l with
  | nil => simp [insertAsc]
  | cons a as ih =>
    have hunf : insertAsc x (a :: as) =
        if x ≤ a then x :: a :: as else a :: insertAsc x as := rfl
    by_cases hxa : x ≤ a
    · rw [hunf, if_pos hxa]
      simp [List.mem_cons]
    · rw [hunf, if_neg hxa]
      simp only [List.mem_cons, ih]
      tauto

theorem mem_sortAsc (y : String) : ∀ l, y ∈ sortAsc l ↔ y ∈ l := by
  intro l
  induction l with
  | nil => simp [sortAsc]
  | cons a as ih =>
    rw [show sortAsc (a :: as) = insertAsc a (sortAsc as) from rfl, mem_insertAsc]
    simp only [List.mem_cons, ih]

theorem mem_sortedSet (y : String) (l : List String) : y ∈ sortedSet l ↔ y ∈ l := by
  unfold sortedSet
  rw [mem_sortAsc]
  exact List.mem_dedup

/-- C10 counterexample: a link with trailing whitespace and no
semicolon breaks the round-trip: the pipeline's strip() removes the
space, so the recovered list differs from the spider's sorted
deduplicated list. -/
theorem link_roundtrip_counterexample :
    (∀ l ∈ [("a " : String)], ';' ∉ l.toList) ∧
    parseLinksField (joinLinksField [("a ")]) ≠ sortedSet [("a ")] := by
  constructor
  · decide
  · decide

/-- C10 amended: for links that are non-empty, semicolon-free and free
of leading and trailing whitespace (true of scheme://host URLs), joining
the sorted deduplicated list with semicolon-space and then splitting on
semicolons and stripping recovers exactly the sorted deduplicated
list.  With a semicolon, or stray surrounding whitespace, inside a link
the round-trip can differ. -/
theorem link_serialization_roundtrip (links : List String)
    (h : ∀ l ∈ links, l ≠ "" ∧ ';' ∉ l.toList ∧ pyStrip l = l) :
    parseLinksField (joinLinksField links) = sortedSet links := by
  have hs : ∀ l ∈ sortedSet links, l ≠ "" ∧ ';' ∉ l.toList ∧ pyStrip l = l :=
    fun l hl => h l ((mem_sortedSet l links).mp hl)
  cases hss : sortedSet links with
  | nil =>
    rw [parseLinksField, joinLinksField, hss]
    rfl
  | cons g gs =>
    have hmem : ∀ l ∈ g :: gs, l ≠ "" ∧ ';' ∉ l.toList ∧ pyStrip l = l := by
      rw [← hss]; exact hs
    have hg := hmem g (List.mem_cons_self _ _)
    have hstrip : ∀ l : String, pyStrip l = l → charStrip l.toList = l.toList := by
      intro l hl
      have := congrArg String.data hl
      exact this
    rw [parseLinksField, joinLinksField, hss]
    rw [show ((⟨pyJoinChars (';' :: ' ' :: []) ((g :: gs).map String.toList)⟩ :
        String)).toList = pyJoinChars (';' :: ' ' :: []) ((g :: gs).map String.toList)
      from rfl]
    rw [show ((g :: gs).map String.toList) = g.toList :: gs.map String.toList from rfl]
    rw [show pySplitChar ';' (pyJoinChars (';' :: ' ' :: [])
          (g.toList :: gs.map String.toList)) =
        pySplitAux ';' (pyJoinChars (';' :: ' ' :: [])
          (g.toList :: gs.map String.toList)) [] from rfl]
    rw [split_joinChars (gs.map String.toList) g.toList hg.2.1
      (by
        intro x hx
        obtain ⟨m, hm, rfl⟩ := List.mem_map.mp hx
        exact (hmem m (List.mem_cons_of_mem _ hm)).2.1) []]
    simp only [List.reverse_nil, List.nil_append, List.map_cons, List.map_map]
    rw [hstrip g hg.2.2]
    have htail : (gs.map ((fun grp => (⟨charStrip grp⟩ : String)) ∘
        (fun x => ' ' :: x) ∘ String.toList)) = gs := by
      apply List.map_congr_left ?_ |>.trans (List.map_id gs)
      intro m hm
      have hmm := hmem m (List.mem_cons_of_mem _ hm)
      show (⟨charStrip (' ' :: m.toList)⟩ : String) = m
      rw [charStrip_space_cons, hstrip m hmm.2.2]
      exact rfl
    rw [htail]
    rw [show (⟨g.toList⟩ : String) = g from rfl]
    rw [List.filter_eq_self.mpr ?_]
    intro a ha
    simpa using (hmem a ha).1

/-! ### Idempotence of normalize_url: character-class lemmas -/

theorem toLower_eq_of_not_upper {c : Char} (h : ¬(65 ≤ c.toNat ∧ c.toNat ≤ 90)) :
    Char.toLower c = c := by
  unfold Char.toLower
  rw [if_neg h]

theorem toLower_toNat_of_upper {c : Char} (h1 : 65 ≤ c.toNat) (h2 : c.toNat ≤ 90) :
    (Char.toLower c).toNat = c.toNat + 32 := by
  unfold Char.toLower
  rw [if_pos ⟨h1, h2⟩]
  have hv : (c.toNat + 32).isValidChar := Or.inl (by omega)
  unfold Char.ofNat
  rw [dif_pos hv]
  rfl

theorem isUpper_iff {c : Char} : c.isUpper = true ↔ 65 ≤ c.toNat ∧ c.toNat ≤ 90 := by
  unfold Char.isUpper
  simp only [Bool.and_eq_true, decide_eq_true_eq]
  exact ⟨fun h => ⟨h.1, h.2⟩, fun h => ⟨h.1, h.2⟩⟩

theorem isLower_iff {c : Char} : c.isLower = true ↔ 97 ≤ c.toNat ∧ c.toNat ≤ 122 := by
  unfold Char.isLower
  simp only [Bool.and_eq_true, decide_eq_true_eq]
  exact ⟨fun h => ⟨h.1, h.2⟩, fun h => ⟨h.1, h.2⟩⟩

theorem isDigit_iff {c : Char} : c.isDigit = true ↔ 48 ≤ c.toNat ∧ c.toNat ≤ 57 := by
  unfold Char.isDigit
  simp only [Bool.and_eq_true, decide_eq_true_eq]
  exact ⟨fun h => ⟨h.1, h.2⟩, fun h => ⟨h.1, h.2⟩⟩

/-- toLower of an alphabetic character is alphabetic (a lowercase
letter). -/
theorem isAlpha_toLower {c : Char} (h : c.isAlpha = true) :
    (Char.toLower c).isAlpha = true ∧ 97 ≤ (Char.toLower c).toNat ∧
      (Char.toLower c).toNat ≤ 122 := by
  unfold Char.isAlpha at h
  rw [Bool.or_eq_true, isUpper_iff, isLower_iff] at h
  rcases h with h | h
  · have ht := toLower_toNat_of_upper h.1 h.2
    refine ⟨?_, by omega, by omega⟩
    unfold Char.isAlpha
    rw [Bool.or_eq_true, isLower_iff]
    exact Or.inr ⟨by omega, by omega⟩
  · have he : Char.toLower c = c := toLower_eq_of_not_upper (by omega)
    rw [he]
    refine ⟨?_, h.1, h.2⟩
    unfold Char.isAlpha
    rw [Bool.or_eq_true, isLower_iff]
    exact Or.inr h

/-- The five cases of a scheme character, by character codes. -/
theorem isSchemeChar_cases {c : Char} (h : isSchemeChar c = true) :
    c.isAlpha = true ∨ c.isDigit = true ∨ c = '+' ∨ c = '-' ∨ c = '.' := by
  unfold isSchemeChar at h
  simp only [Bool.or_eq_true, beq_iff_eq] at h
  tauto

/-- Scheme characters stay scheme characters under toLower, and toLower
is idempotent on them. -/
theorem isSchemeChar_toLower {c : Char} (h : isSchemeChar c = true) :
    isSchemeChar (Char.toLower c) = true ∧
      Char.toLower (Char.toLower c) = Char.toLower c := by
  rcases isSchemeChar_cases h with h | h | h | h | h
  · obtain ⟨ha, h97, h122⟩ := isAlpha_toLower h
    constructor
    · unfold isSchemeChar
      rw [ha]
      simp
    · exact toLower_eq_of_not_upper (by omega)
  · rw [isDigit_iff] at h
    have he : Char.toLower c = c := toLower_eq_of_not_upper (by omega)
    rw [he, he]
    refine ⟨?_, rfl⟩
    unfold isSchemeChar
    rw [isDigit_iff.mpr h]
    simp
  · subst h
    exact ⟨by decide, by decide⟩
  · subst h
    exact ⟨by decide, by decide⟩
  · subst h
    exact ⟨by decide, by decide⟩

/-- A scheme character is none of the delimiter or unsafe characters,
and is not C0/space. -/
theorem isSchemeChar_props {c : Char} (h : isSchemeChar c = true) :
    (c == ':') = false ∧ isNetlocDelim c = false ∧ (c == ';') = false ∧
      isUnsafeByte c = false ∧ isC0OrSpace c = false := by
  have hn : 43 ≤ c.toNat ∧ c.toNat ≤ 122 ∧ c.toNat ≠ 47 ∧ c.toNat ≠ 58 ∧
      c.toNat ≠ 59 ∧ c.toNat ≠ 63 ∧ c.toNat ≠ 35 := by
    rcases isSchemeChar_cases h with h | h | h | h | h
    · unfold Char.isAlpha at h
      rw [Bool.or_eq_true, isUpper_iff, isLower_iff] at h
      rcases h with h | h <;>
        exact ⟨by omega, by omega, by omega, by omega, by omega, by omega, by omega⟩
    · rw [isDigit_iff] at h
      exact ⟨by omega, by omega, by omega, by omega, by omega, by omega, by omega⟩
    · subst h
      exact ⟨by decide, by decide, by decide, by decide, by decide, by decide, by decide⟩
    · subst h
      exact ⟨by decide, by decide, by decide, by decide, by decide, by decide, by decide⟩
    · subst h
      exact ⟨by decide, by decide, by decide, by decide, by decide, by decide, by decide⟩
  obtain ⟨h1, h2, h3, h4, h5, h6, h7⟩ := hn
  refine ⟨?_, ?_, ?_, ?_, ?_⟩
  · rw [beq_eq_false_iff_ne]
    intro hc
    exact h4 (by rw [hc]; rfl)
  · unfold isNetlocDelim
    simp only [Bool.or_eq_false_iff, beq_eq_false_iff_ne]
    refine ⟨⟨fun hc => h3 (by rw [hc]; rfl), fun hc => h6 (by rw [hc]; rfl)⟩,
      fun hc => h7 (by rw [hc]; rfl)⟩
  · rw [beq_eq_false_iff_ne]
    intro hc
    exact h5 (by rw [hc]; rfl)
  · unfold isUnsafeByte
    simp only [Bool.or_eq_false_iff, beq_eq_false_iff_ne]
    refine ⟨⟨fun hc => ?_, fun hc => ?_⟩, fun hc => ?_⟩ <;>
      · rw [hc] at h1
        exact absurd h1 (by decide)
  · unfold isC0OrSpace
    simp only [decide_eq_false_iff_not]
    intro hle
    exact absurd (show c.toNat ≤ 32 from hle) (by omega)

/-! ### List splitting helpers -/

theorem mem_of_takeWhile {p : Char → Bool} {l : Chars} {x : Char}
    (h : x ∈ l.takeWhile p) : x ∈ l := by
  rw [← List.takeWhile_append_dropWhile p l]
  exact List.mem_append_left _ h

theorem mem_of_dropWhile {p : Char → Bool} {l : Chars} {x : Char}
    (h : x ∈ l.dropWhile p) : x ∈ l := by
  rw [← List.takeWhile_append_dropWhile p l]
  exact List.mem_append_right _ h

theorem takeWhile_append_all {p : Char → Bool} {l₁ : Chars}
    (h : ∀ c ∈ l₁, p c = true) (l₂ : Chars) :
    (l₁ ++ l₂).takeWhile p = l₁ ++ l₂.takeWhile p := by
  induction l₁ with
  | nil => simp
  | cons c cs ih =>
    rw [List.cons_append, List.takeWhile_cons, if_pos (h c (List.mem_cons_self _ _)),
      ih (fun x hx => h x (List.mem_cons_of_mem _ hx)), List.cons_append]

theorem dropWhile_append_all {p : Char → Bool} {l₁ : Chars}
    (h : ∀ c ∈ l₁, p c = true) (l₂ : Chars) :
    (l₁ ++ l₂).dropWhile p = l₂.dropWhile p := by
  induction l₁ with
  | nil => simp
  | cons c cs ih =>
    rw [List.cons_append, List.dropWhile_cons, if_pos (h c (List.mem_cons_self _ _)),
      ih (fun x hx => h x (List.mem_cons_of_mem _ hx))]

theorem takeWhile_append_stop {p : Char → Bool} {l : Chars}
    (h : l.dropWhile p ≠ []) (r : Chars) :
    (l ++ r).takeWhile p = l.takeWhile p := by
  induction l with
  | nil => simp at h
  | cons c cs ih =>
    rw [List.cons_append, List.takeWhile_cons, List.takeWhile_cons]
    by_cases hc : p c = true
    · rw [if_pos hc, if_pos hc]
      rw [List.dropWhile_cons, if_pos hc] at h
      rw [ih h]
    · rw [if_neg hc, if_neg hc]

theorem dropWhile_append_stop {p : Char → Bool} {l : Chars}
    (h : l.dropWhile p ≠ []) (r : Chars) :
    (l ++ r).dropWhile p = l.dropWhile p ++ r := by
  induction l with
  | nil => simp at h
  | cons c cs ih =>
    rw [List.cons_append, List.dropWhile_cons, List.dropWhile_cons]
    by_cases hc : p c = true
    · rw [if_pos hc, if_pos hc]
      rw [List.dropWhile_cons, if_pos hc] at h
      exact ih h
    · rw [if_neg hc, if_neg hc, List.cons_append]

theorem breakAt_not_mem {c : Char} {l : Chars} (h : c ∉ l) : breakAt c l = (l, none) := by
  unfold breakAt
  have hd : l.dropWhile (fun x => !(x == c)) = [] := by
    rw [List.dropWhile_eq_nil_iff]
    intro x hx
    simp only [Bool.not_eq_eq_eq_not, Bool.not_true, beq_eq_false_iff_ne]
    rintro rfl
    exact h hx
  rw [hd]

theorem breakAt_first {c : Char} {l₁ : Chars} (h : c ∉ l₁) (l₂ : Chars) :
    breakAt c (l₁ ++ c :: l₂) = (l₁, some l₂) := by
  unfold breakAt
  have hall : ∀ x ∈ l₁, (fun x => !(x == c)) x = true := by
    intro x hx
    simp only [Bool.not_eq_eq_eq_not, Bool.not_true, beq_eq_false_iff_ne]
    rintro rfl
    exact h hx
  rw [dropWhile_append_all hall, takeWhile_append_all hall]
  rw [List.dropWhile_cons, List.takeWhile_cons]
  simp

theorem dropWhile_head_false {p : Char → Bool} :
    ∀ {l : Chars} {y : Char} {rest : Chars}, l.dropWhile p = y :: rest → p y = false := by
  intro l
  induction l with
  | nil => intro y rest h; cases h
  | cons a as ih =>
    intro y rest h
    rw [List.dropWhile_cons] at h
    by_cases ha : p a = true
    · rw [if_pos ha] at h
      exact ih h
    · rw [if_neg ha] at h
      cases h
      exact Bool.eq_false_iff.mpr ha

/-- Characterization of breakAt when the character occurs. -/
theorem breakAt_eq_some {c : Char} {l a b : Chars} (h : breakAt c l = (a, some b)) :
    l = a ++ c :: b ∧ c ∉ a := by
  unfold breakAt at h
  cases hd : l.dropWhile (fun x => !(x == c)) with
  | nil => rw [hd] at h; cases h
  | cons y rest =>
    rw [hd] at h
    have ha : a = l.takeWhile (fun x => !(x == c)) := by
      have := congrArg Prod.fst h
      simpa using this.symm
    have hb : b = rest := by
      have := congrArg Prod.snd h
      simpa using this.symm
    have hy : y = c := by
      have := dropWhile_head_false hd
      simpa using this
    subst hy
    constructor
    · rw [ha, hb, ← hd]
      exact (List.takeWhile_append_dropWhile _ _).symm
    · rw [ha]
      intro hmem
      have := List.mem_takeWhile_imp hmem
      simp at this

/-- Characterization of breakAt when the character does not occur. -/
theorem breakAt_eq_none {c : Char} {l a : Chars} (h : breakAt c l = (a, none)) :
    a = l ∧ c ∉ l := by
  unfold breakAt at h
  cases hd : l.dropWhile (fun x => !(x == c)) with
  | nil =>
    rw [hd] at h
    have ha : a = l := by
      have := congrArg Prod.fst h
      simpa using this.symm
    refine ⟨ha, ?_⟩
    intro hmem
    have hall := List.dropWhile_eq_nil_iff.mp hd c hmem
    simp at hall
  | cons y rest =>
    rw [hd] at h
    cases h

/-- Witness for C10 (amended): a duplicated two-link list
round-trips to its sorted deduplicated form. -/
theorem link_serialization_roundtrip_witness :
    (∀ l ∈ [("http://h/b" : String), ("http://h/a"), ("http://h/a")],
      l ≠ "" ∧ ';' ∉ l.toList ∧ pyStrip l = l) ∧
    parseLinksField (joinLinksField [("http://h/b"), ("http://h/a"), ("http://h/a")]) =
      sortedSet [("http://h/b"), ("http://h/a"), ("http://h/a")] :=
  ⟨by decide,
   link_serialization_roundtrip [("http://h/b"), ("http://h/a"), ("http://h/a")] (by decide)⟩

/-! ### Stage lemmas for urlsplit -/

theorem cleanChars_cleanUrl (l : Chars) : CleanChars (cleanUrl l) := by
  intro c hc
  unfold cleanUrl at hc
  have := (List.mem_filter.mp hc).2
  simpa using this

theorem cleanUrl_subset {l : Chars} {x : Char} (hx : x ∈ cleanUrl l) : x ∈ l := by
  unfold cleanUrl at hx
  exact mem_of_dropWhile (List.mem_filter.mp hx).1

/-- cleanUrl is the identity when the head is not C0/space and no
character is an unsafe byte. -/
theorem cleanUrl_eq_self {l : Chars}
    (hhead : ∀ c cs, l = c :: cs → isC0OrSpace c = false)
    (hclean : CleanChars l) : cleanUrl l = l := by
  unfold cleanUrl
  have hd : l.dropWhile (fun c => isC0OrSpace c) = l := by
    cases l with
    | nil => rfl
    | cons c cs =>
      have h0 := hhead c cs rfl
      rw [List.dropWhile_cons, if_neg (by rw [h0]; simp)]
  rw [hd]
  apply List.filter_eq_self.mpr
  intro c hc
  rw [hclean c hc]
  rfl

/-- Scheme detection on a valid lowercase scheme prefix. -/
theorem detectScheme_of_valid {t : Chars} (R : Chars) (ht : ValidScheme t) :
    detectScheme (t ++ ':' :: R) = (some t, R) := by
  obtain ⟨⟨c, cs, rfl, hca⟩, hall, hlow⟩ := ht
  have hallpred : ∀ x ∈ c :: cs, (fun x => !(x == ':')) x = true := by
    intro x hx
    have := (isSchemeChar_props (hall x hx)).1
    simp [this]
  have htake : ((c :: cs) ++ ':' :: R).takeWhile (fun x => !(x == ':')) = c :: cs := by
    rw [takeWhile_append_all hallpred]
    simp [List.takeWhile_cons]
  have hdrop : ((c :: cs) ++ ':' :: R).dropWhile (fun x => !(x == ':')) = ':' :: R := by
    rw [dropWhile_append_all hallpred]
    simp [List.dropWhile_cons]
  unfold detectScheme
  rw [htake, hdrop]
  have hguard : (c.isAlpha && (c :: cs).all (fun x => isSchemeChar x)) = true := by
    rw [hca, List.all_eq_true.mpr hall]
    rfl
  simp only [hguard, if_true]
  rw [hlow]

/-- Any scheme detectScheme finds is a valid lowercase scheme, and the
remainder comes from the input. -/
theorem detectScheme_inv (u : Chars) :
    (∀ s, (detectScheme u).1 = some s → ValidScheme s) ∧
    (∀ x ∈ (detectScheme u).2, x ∈ u) := by
  unfold detectScheme
  cases hd : u.dropWhile (fun x => !(x == ':')) with
  | nil =>
    refine ⟨fun s hs => ?_, fun x hx => ?_⟩
    · simp only [] at hs
      cases hs
    · simp only [] at hx
      exact hx
  | cons y after =>
    cases hp : u.takeWhile (fun x => !(x == ':')) with
    | nil =>
      refine ⟨fun s hs => ?_, fun x hx => ?_⟩
      · simp only [] at hs
        cases hs
      · simp only [] at hx
        exact hx
    | cons c cs =>
      simp only []
      by_cases hg : (c.isAlpha && (c :: cs).all (fun x => isSchemeChar x)) = true
      · rw [if_pos hg]
        simp only [Bool.and_eq_true, List.all_eq_true] at hg
        constructor
        · intro s hs
          have hs2 : s = (c :: cs).map Char.toLower := by
            simpa using hs.symm
          subst hs2
          refine ⟨⟨Char.toLower c, cs.map Char.toLower, rfl, (isAlpha_toLower hg.1).1⟩, ?_, ?_⟩
          · intro x hx
            obtain ⟨y2, hy2, rfl⟩ := List.mem_map.mp hx
            exact (isSchemeChar_toLower (hg.2 y2 hy2)).1
          · rw [List.map_map]
            apply List.map_congr_left
            intro x hx
            exact (isSchemeChar_toLower (hg.2 x hx)).2
        · intro x hx
          have : x ∈ y :: after := List.mem_cons_of_mem _ hx
          rw [← hd] at this
          exact mem_of_dropWhile this
      · rw [if_neg hg]
        refine ⟨fun s hs => ?_, fun x hx => ?_⟩
        · cases hs
        · exact hx

/-- Fragment/query splitting of a path ++ optional query ++ optional
fragment. -/
theorem splitFragQuery_shaped {B Q F : Chars} (hB1 : '?' ∉ B) (hB2 : '#' ∉ B)
    (hQ : '#' ∉ Q) :
    splitFragQuery (B ++ optQuery Q ++ optFrag F) = (B, Q, F) := by
  have hBQ : '#' ∉ B ++ optQuery Q := by
    intro hmem
    rcases List.mem_append.mp hmem with h | h
    · exact hB2 h
    · unfold optQuery at h
      by_cases hq : Q = []
      · rw [if_pos hq] at h; cases h
      · rw [if_neg hq] at h
        rcases List.mem_cons.mp h with h | h
        · cases h
        · exact hQ h
  have hq2 : breakAt '?' (B ++ optQuery Q) = (B, if Q = [] then none else some Q) := by
    unfold optQuery
    by_cases hq : Q = []
    · rw [if_pos hq, if_pos hq, List.append_nil]
      exact breakAt_not_mem hB1
    · rw [if_neg hq, if_neg hq]
      exact breakAt_first hB1 Q
  unfold splitFragQuery
  by_cases hf : F = []
  · rw [show optFrag F = [] from by unfold optFrag; rw [if_pos hf], List.append_nil]
    rw [breakAt_not_mem hBQ]
    simp only []
    rw [hq2]
    by_cases hq : Q = []
    · rw [if_pos hq]
      try (first | rfl | simp [hq, hf])
    · rw [if_neg hq]
      try (first | rfl | simp [hf])
  · rw [show optFrag F = '#' :: F from by unfold optFrag; rw [if_neg hf]]
    rw [breakAt_first hBQ F]
    simp only []
    rw [hq2]
    by_cases hq : Q = []
    · rw [if_pos hq]
      try (first | rfl | simp [hq])
    · rw [if_neg hq]
      try (first | rfl | simp)

/-- The components splitFragQuery returns: no '?' or '#' in the path,
no '#' in the query, and everything from the input. -/
theorem splitFragQuery_inv (l : Chars) :
    ('?' ∉ (splitFragQuery l).1) ∧ ('#' ∉ (splitFragQuery l).1) ∧
    ('#' ∉ (splitFragQuery l).2.1) ∧
    (∀ x ∈ (splitFragQuery l).1, x ∈ l) ∧ (∀ x ∈ (splitFragQuery l).2.1, x ∈ l) ∧
    (∀ x ∈ (splitFragQuery l).2.2, x ∈ l) := by
  unfold splitFragQuery
  rcases h1 : breakAt '#' l with ⟨a, ob⟩
  cases ob with
  | some b =>
    obtain ⟨hl, hna⟩ := breakAt_eq_some h1
    have hsubA : ∀ x ∈ a, x ∈ l := fun x hx => by
      rw [hl]; exact List.mem_append_left _ hx
    have hsubB : ∀ x ∈ b, x ∈ l := fun x hx => by
      rw [hl]; exact List.mem_append_right _ (List.mem_cons_of_mem _ hx)
    simp only []
    rcases h2 : breakAt '?' a with ⟨a2, ob2⟩
    cases ob2 with
    | some b2 =>
      obtain ⟨hl2, hn2⟩ := breakAt_eq_some h2
      have hsubA2 : ∀ x ∈ a2, x ∈ a := fun x hx => by
        rw [hl2]; exact List.mem_append_left _ hx
      have hsubB2 : ∀ x ∈ b2, x ∈ a := fun x hx => by
        rw [hl2]; exact List.mem_append_right _ (List.mem_cons_of_mem _ hx)
      simp only []
      exact ⟨hn2, fun hm => hna (hsubA2 _ hm), fun hm => hna (hsubB2 _ hm),
        fun x hx => hsubA _ (hsubA2 _ hx), fun x hx => hsubA _ (hsubB2 _ hx), hsubB⟩
    | none =>
      obtain ⟨ha2, hn2⟩ := breakAt_eq_none h2
      subst ha2
      simp only []
      exact ⟨hn2, hna, fun hm => absurd hm (List.not_mem_nil _),
        hsubA, fun x hx => absurd hx (List.not_mem_nil _), hsubB⟩
  | none =>
    obtain ⟨ha, hn⟩ := breakAt_eq_none h1
    subst ha
    simp only []
    rcases h2 : breakAt '?' a with ⟨a2, ob2⟩
    cases ob2 with
    | some b2 =>
      obtain ⟨hl2, hn2⟩ := breakAt_eq_some h2
      have hsubA2 : ∀ x ∈ a2, x ∈ a := fun x hx => by
        rw [hl2]; exact List.mem_append_left _ hx
      have hsubB2 : ∀ x ∈ b2, x ∈ a := fun x hx => by
        rw [hl2]; exact List.mem_append_right _ (List.mem_cons_of_mem _ hx)
      simp only []
      exact ⟨hn2, fun hm => hn (hsubA2 _ hm), fun hm => hn (hsubB2 _ hm),
        hsubA2, hsubB2, fun x hx => absurd hx (List.not_mem_nil _)⟩
    | none =>
      obtain ⟨ha2, hn2⟩ := breakAt_eq_none h2
      subst ha2
      simp only []
      exact ⟨hn2, hn, fun hm => absurd hm (List.not_mem_nil _),
        fun x hx => hx, fun x hx => absurd hx (List.not_mem_nil _), fun x hx => absurd hx (List.not_mem_nil _)⟩

theorem takeWhile_cons_false {p : Char → Bool} {c : Char} (h : p c = false) (l : Chars) :
    (c :: l).takeWhile p = [] := by
  rw [List.takeWhile_cons, if_neg (by simp [h])]

theorem dropWhile_cons_false {p : Char → Bool} {c : Char} (h : p c = false) (l : Chars) :
    (c :: l).dropWhile p = c :: l := by
  rw [List.dropWhile_cons, if_neg (by simp [h])]

theorem takeWhile_all {p : Char → Bool} {l : Chars} (h : ∀ c ∈ l, p c = true) :
    l.takeWhile p = l := by
  have := takeWhile_append_all h ([] : Chars)
  simpa using this

theorem splitNetloc_inv (l : Chars) :
    NoDelimChars (splitNetloc l).1 ∧ (∀ x ∈ (splitNetloc l).1, x ∈ l) ∧
    (∀ x ∈ (splitNetloc l).2, x ∈ l) := by
  unfold splitNetloc
  refine ⟨?_, fun x hx => mem_of_takeWhile hx, fun x hx => mem_of_dropWhile hx⟩
  intro c hc
  have := List.mem_takeWhile_imp hc
  simpa using this

/-- The optional query/fragment region starts with a delimiter (or is
empty), so _splitnetloc never eats into it. -/
theorem optQF_take_drop (Q F : Chars) :
    (optQuery Q ++ optFrag F).takeWhile (fun c => !isNetlocDelim c) = [] ∧
    (optQuery Q ++ optFrag F).dropWhile (fun c => !isNetlocDelim c) =
      optQuery Q ++ optFrag F := by
  unfold optQuery optFrag
  by_cases hq : Q = []
  · rw [if_pos hq, List.nil_append]
    by_cases hf : F = []
    · rw [if_pos hf]
      exact ⟨rfl, rfl⟩
    · rw [if_neg hf]
      exact ⟨takeWhile_cons_false (by decide) _, dropWhile_cons_false (by decide) _⟩
  · rw [if_neg hq, List.cons_append]
    exact ⟨takeWhile_cons_false (by decide) _, dropWhile_cons_false (by decide) _⟩

/-- _splitnetloc on netloc ++ path ++ optional query/fragment. -/
theorem splitNetloc_shape {N P : Chars} (hN : NoDelimChars N) (Q F : Chars) :
    splitNetloc (N ++ (P ++ (optQuery Q ++ optFrag F))) =
      (N ++ P.takeWhile (fun c => !isNetlocDelim c),
       P.dropWhile (fun c => !isNetlocDelim c) ++ (optQuery Q ++ optFrag F)) := by
  have hNall : ∀ c ∈ N, (fun c => !isNetlocDelim c) c = true := by
    intro c hc
    simp [hN c hc]
  unfold splitNetloc
  rw [takeWhile_append_all hNall, dropWhile_append_all hNall]
  by_cases hB : P.dropWhile (fun c => !isNetlocDelim c) = []
  · have hPall : ∀ c ∈ P, (fun c => !isNetlocDelim c) c = true :=
      List.dropWhile_eq_nil_iff.mp hB
    rw [takeWhile_append_all hPall, dropWhile_append_all hPall]
    rw [(optQF_take_drop Q F).1, (optQF_take_drop Q F).2]
    rw [takeWhile_all hPall, hB, List.append_nil, List.nil_append]
  · rw [takeWhile_append_stop hB, dropWhile_append_stop hB]

theorem mem_afterLastSlash {l : Chars} {x : Char} (hx : x ∈ afterLastSlash l) : x ∈ l := by
  unfold afterLastSlash at hx
  exact List.mem_reverse.mp (mem_of_takeWhile hx)

theorem noParams_of_not_mem {l : Chars} (h : ';' ∉ l) : NoParams l :=
  fun hm => h (mem_afterLastSlash hm)

theorem contains_eq_false_iff {l : Chars} {c : Char} : l.contains c = false ↔ c ∉ l := by
  constructor
  · intro h hm
    rw [List.contains_eq_any_beq] at h
    have : l.any (fun x => c == x) = true := by
      rw [List.any_eq_true]
      exact ⟨c, hm, by simp⟩
    rw [this] at h
    cases h
  · intro h
    rw [List.contains_eq_any_beq]
    rw [← Bool.not_eq_true, List.any_eq_true]
    rintro ⟨x, hx, hbe⟩
    have : c = x := by simpa using hbe
    subst this
    exact h hx

/-- _splitparams leaves a parameter-free path unchanged. -/
theorem splitparams_of_noparams {p : Chars} (h : NoParams p) : splitparams p = (p, []) := by
  unfold splitparams
  by_cases hs : p.contains '/'
  · rw [if_pos hs]
    simp only []
    have hna : ';' ∉ (p.reverse.takeWhile (fun c => !(c == '/'))).reverse := by
      intro hm
      exact h (List.mem_reverse.mp hm)
    rw [breakAt_not_mem hna]
  · rw [if_neg hs]
    have hslash : '/' ∉ p := contains_eq_false_iff.mp (by
      rw [← Bool.not_eq_true]
      exact hs)
    have hnp : ';' ∉ p := by
      intro hm
      apply h
      unfold afterLastSlash
      have hall : ∀ c ∈ p.reverse, (fun c => !(c == '/')) c = true := by
        intro c hc
        have hcp : c ∈ p := List.mem_reverse.mp hc
        simp only [Bool.not_eq_eq_eq_not, Bool.not_true, beq_eq_false_iff_ne]
        rintro rfl
        exact hslash hcp
      rw [takeWhile_all hall]
      exact List.mem_reverse.mpr hm
    rw [breakAt_not_mem hnp]

/-- The path component _splitparams returns has no parameters left and
all its characters (and those of the parameters) come from the input. -/
theorem splitparams_fst (p : Chars) :
    NoParams (splitparams p).1 ∧ (∀ x ∈ (splitparams p).1, x ∈ p) ∧
    (∀ x ∈ (splitparams p).2, x ∈ p) := by
  unfold splitparams
  by_cases hs : p.contains '/'
  · rw [if_pos hs]
    simp only []
    have hsubAfter : ∀ x ∈ (p.reverse.takeWhile (fun c => !(c == '/'))).reverse, x ∈ p := by
      intro x hx
      exact List.mem_reverse.mp (mem_of_takeWhile (List.mem_reverse.mp hx))
    have hnoslashAfter : ∀ x ∈ (p.reverse.takeWhile (fun c => !(c == '/'))).reverse, x ≠ '/' := by
      intro x hx
      have := List.mem_takeWhile_imp (List.mem_reverse.mp hx)
      simpa using this
    rcases hb : breakAt ';' ((p.reverse.takeWhile (fun c => !(c == '/'))).reverse) with ⟨a, ob⟩
    cases ob with
    | none =>
      obtain ⟨ha, hnmem⟩ := breakAt_eq_none hb
      simp only []
      refine ⟨?_, fun x hx => hx, fun x hx => absurd hx (List.not_mem_nil _)⟩
      intro hm
      exact hnmem (List.mem_reverse.mpr hm)
    | some b =>
      obtain ⟨hsplit, hnsa⟩ := breakAt_eq_some hb
      simp only []
      have hsubA : ∀ x ∈ a, x ∈ p := by
        intro x hx
        exact hsubAfter x (by rw [hsplit]; exact List.mem_append_left _ hx)
      have hsubB : ∀ x ∈ b, x ∈ p := by
        intro x hx
        exact hsubAfter x (by rw [hsplit]; exact List.mem_append_right _ (List.mem_cons_of_mem _ hx))
      have hsubPre : ∀ x ∈ (p.reverse.dropWhile (fun c => !(c == '/'))).reverse, x ∈ p := by
        intro x hx
        exact List.mem_reverse.mp (mem_of_dropWhile (List.mem_reverse.mp hx))
      refine ⟨?_, ?_, hsubB⟩
      · -- no parameters are left after the last slash of pre ++ a
        intro hm
        unfold afterLastSlash at hm
        rw [List.reverse_append, List.reverse_reverse] at hm
        have hAall : ∀ c ∈ a.reverse, (fun c => !(c == '/')) c = true := by
          intro c hc
          have hca : c ∈ a := List.mem_reverse.mp hc
          simp only [Bool.not_eq_eq_eq_not, Bool.not_true, beq_eq_false_iff_ne]
          intro hslash
          exact hnoslashAfter c (by rw [hsplit]; exact List.mem_append_left _ hca) hslash
        rw [takeWhile_append_all hAall] at hm
        rcases List.mem_append.mp hm with hm1 | hm2
        · exact hnsa (List.mem_reverse.mp hm1)
        · cases hpre : p.reverse.dropWhile (fun c => !(c == '/')) with
          | nil =>
            rw [hpre] at hm2
            simp at hm2
          | cons y tail =>
            have hy := dropWhile_head_false hpre
            have hyc : y = '/' := by simpa using hy
            rw [hpre, hyc] at hm2
            rw [takeWhile_cons_false (by decide)] at hm2
            cases hm2
      · intro x hx
        rcases List.mem_append.mp hx with hx1 | hx2
        · exact hsubPre x hx1
        · exact hsubA x hx2
  · rw [if_neg hs]
    have hslash : '/' ∉ p := contains_eq_false_iff.mp (by
      rw [← Bool.not_eq_true]
      exact hs)
    rcases hb : breakAt ';' p with ⟨a, ob⟩
    cases ob with
    | none =>
      obtain ⟨ha, hnmem⟩ := breakAt_eq_none hb
      subst ha
      simp only []
      exact ⟨noParams_of_not_mem hnmem, fun x hx => hx,
        fun x hx => absurd hx (List.not_mem_nil _)⟩
    | some b =>
      obtain ⟨hsplit, hnsa⟩ := breakAt_eq_some hb
      simp only []
      have hsubA : ∀ x ∈ a, x ∈ p := by
        intro x hx
        rw [hsplit]
        exact List.mem_append_left _ hx
      refine ⟨?_, hsubA, ?_⟩
      · exact noParams_of_not_mem hnsa
      · intro x hx
        rw [hsplit]
        exact List.mem_append_right _ (List.mem_cons_of_mem _ hx)

theorem splitparamsIf_fst (p : Chars) :
    NoParams (splitparamsIf p).1 ∧ (∀ x ∈ (splitparamsIf p).1, x ∈ p) ∧
    (∀ x ∈ (splitparamsIf p).2, x ∈ p) := by
  unfold splitparamsIf
  by_cases hc : p.contains ';'
  · rw [if_pos hc]
    exact splitparams_fst p
  · rw [if_neg hc]
    have hnp : ';' ∉ p := contains_eq_false_iff.mp (by
      rw [← Bool.not_eq_true]
      exact hc)
    exact ⟨noParams_of_not_mem hnp, fun x hx => hx,
      fun x hx => absurd hx (List.not_mem_nil _)⟩

theorem splitparamsIf_of_noparams {p : Chars} (h : NoParams p) : splitparamsIf p = (p, []) := by
  unfold splitparamsIf
  by_cases hc : p.contains ';'
  · rw [if_pos hc]
    exact splitparams_of_noparams h
  · rw [if_neg hc]

theorem exbind_ok {α β : Type} (a : α) (f : α → Except String β) :
    (Except.ok a >>= f) = f a := rfl

theorem exbind_error {α β : Type} (e : String) (f : α → Except String β) :
    ((Except.error e : Except String α) >>= f) = Except.error e := rfl

theorem expure {α : Type} (a : α) : (pure a : Except String α) = Except.ok a := rfl

theorem validScheme_ne {t : Chars} (h : ValidScheme t) : t ≠ [] := by
  obtain ⟨⟨c, cs, rfl, -⟩, -, -⟩ := h
  exact List.cons_ne_nil c cs

theorem validScheme_clean {t : Chars} (h : ValidScheme t) : CleanChars t := by
  intro c hc
  exact (isSchemeChar_props (h.2.1 c hc)).2.2.2.1

theorem optQuery_clean {q : Chars} (h : CleanChars q) : CleanChars (optQuery q) := by
  intro c hc
  unfold optQuery at hc
  by_cases hq : q = []
  · rw [if_pos hq] at hc
    cases hc
  · rw [if_neg hq] at hc
    rcases List.mem_cons.mp hc with rfl | hc2
    · rfl
    · exact h c hc2

theorem optQuery_take_drop (q : Chars) :
    (optQuery q).takeWhile (fun c => !isNetlocDelim c) = [] ∧
    (optQuery q).dropWhile (fun c => !isNetlocDelim c) = optQuery q := by
  unfold optQuery
  by_cases hq : q = []
  · rw [if_pos hq]
    exact ⟨rfl, rfl⟩
  · rw [if_neg hq]
    exact ⟨takeWhile_cons_false (by decide) _, dropWhile_cons_false (by decide) _⟩

/-- The segment after the last slash only depends on the part from the
last slash on. -/
theorem afterLastSlash_append {l₂ : Chars} (h : '/' ∈ l₂) (l₁ : Chars) :
    afterLastSlash (l₁ ++ l₂) = afterLastSlash l₂ := by
  unfold afterLastSlash
  rw [List.reverse_append]
  have hd : l₂.reverse.dropWhile (fun c => !(c == '/')) ≠ [] := by
    intro hnil
    have hall := List.dropWhile_eq_nil_iff.mp hnil
    have := hall '/' (List.mem_reverse.mpr h)
    simp at this
  rw [takeWhile_append_stop hd]

/-- Dropping the delimiter-free prefix of a '?'-free, '#'-free path
keeps it parameter-free, and the remainder is empty or starts with a
slash. -/
theorem noParams_dropWhile {pa : Chars} (h1 : '?' ∉ pa) (h2 : '#' ∉ pa)
    (hnp : NoParams pa) :
    NoParams (pa.dropWhile (fun c => !isNetlocDelim c)) ∧
    (pa.dropWhile (fun c => !isNetlocDelim c) = [] ∨
      (pa.dropWhile (fun c => !isNetlocDelim c)).take 1 = ['/']) := by
  cases hpd : pa.dropWhile (fun c => !isNetlocDelim c) with
  | nil =>
    refine ⟨?_, Or.inl rfl⟩
    intro hm
    simp [afterLastSlash] at hm
  | cons y t =>
    have hy := dropWhile_head_false hpd
    have hymem : y ∈ pa := by
      apply mem_of_dropWhile (p := fun c => !isNetlocDelim c)
      rw [hpd]
      exact List.mem_cons_self y t
    have hy' : isNetlocDelim y = true := by simpa using hy
    have hys : y = '/' := by
      unfold isNetlocDelim at hy'
      simp only [Bool.or_eq_true, beq_iff_eq] at hy'
      rcases hy' with (h | h) | h
      · exact h
      · exact absurd (h ▸ hymem) h1
      · exact absurd (h ▸ hymem) h2
    subst hys
    refine ⟨?_, Or.inr rfl⟩
    intro hm
    apply hnp
    have hsplit : pa = pa.takeWhile (fun c => !isNetlocDelim c) ++ ('/' :: t) := by
      rw [← hpd, List.takeWhile_append_dropWhile]
    rw [hsplit, afterLastSlash_append (List.mem_cons_self _ _)]
    exact hm

/-- uses_relative is contained in uses_netloc (CPython 3.11 lists). -/
theorem usesRel_sub : ∀ s ∈ usesRelative, s ∈ usesNetloc := by decide

/-- urlsplit's cleanup leaves a well-formed scheme://netloc head intact
and only filters the tail. -/
theorem cleanUrl_shaped {γ n : Chars} (X : Chars) (hγ : ValidScheme γ)
    (hnc : CleanChars n) :
    cleanUrl (γ ++ ':' :: '/' :: '/' :: (n ++ X)) =
      γ ++ ':' :: '/' :: '/' :: (n ++ X.filter (fun c => !isUnsafeByte c)) := by
  obtain ⟨⟨c, cs, hγeq, hca⟩, hall, hlow⟩ := hγ
  have hc0 : isC0OrSpace c = false :=
    (isSchemeChar_props (hall c (by rw [hγeq]; exact List.mem_cons_self c cs))).2.2.2.2
  unfold cleanUrl
  have hdw : (γ ++ ':' :: '/' :: '/' :: (n ++ X)).dropWhile (fun c => isC0OrSpace c) =
      γ ++ ':' :: '/' :: '/' :: (n ++ X) := by
    rw [hγeq, List.cons_append, List.dropWhile_cons, if_neg (by rw [hc0]; simp)]
  rw [hdw, List.filter_append]
  have hγf : γ.filter (fun c => !isUnsafeByte c) = γ := by
    apply List.filter_eq_self.mpr
    intro x hx
    rw [(isSchemeChar_props (hall x hx)).2.2.2.1]
    rfl
  rw [hγf]
  rw [List.filter_cons_of_pos (by decide), List.filter_cons_of_pos (by decide),
      List.filter_cons_of_pos (by decide), List.filter_append]
  have hnf : n.filter (fun c => !isUnsafeByte c) = n := by
    apply List.filter_eq_self.mpr
    intro x hx
    rw [hnc x hx]
    rfl
  rw [hnf]

/-- urlsplit of scheme://netloc-tail: the scheme is found, the netloc
extends to the first delimiter in the filtered tail, and the rest is
split at '#' and '?'; an unbalanced bracket raises. -/
theorem urlsplitCore_shaped {γ n : Chars} (X : Chars) (hγ : ValidScheme γ)
    (hn : NoDelimChars n) (hnc : CleanChars n) :
    urlsplitCore (γ ++ ':' :: '/' :: '/' :: (n ++ X)) =
      (if bracketFail (n ++ (X.filter (fun c => !isUnsafeByte c)).takeWhile
          (fun c => !isNetlocDelim c)) = true then
        Except.error ("Invalid IPv6 URL")
      else
        Except.ok ⟨some γ,
          n ++ (X.filter (fun c => !isUnsafeByte c)).takeWhile (fun c => !isNetlocDelim c),
          (splitFragQuery ((X.filter (fun c => !isUnsafeByte c)).dropWhile
            (fun c => !isNetlocDelim c))).1,
          (splitFragQuery ((X.filter (fun c => !isUnsafeByte c)).dropWhile
            (fun c => !isNetlocDelim c))).2.1,
          (splitFragQuery ((X.filter (fun c => !isUnsafeByte c)).dropWhile
            (fun c => !isNetlocDelim c))).2.2⟩) := by
  have hnall : ∀ x ∈ n, (fun c => !isNetlocDelim c) x = true := by
    intro x hx
    simp [hn x hx]
  have hsp : splitNetloc (n ++ X.filter (fun c => !isUnsafeByte c)) =
      (n ++ (X.filter (fun c => !isUnsafeByte c)).takeWhile (fun c => !isNetlocDelim c),
       (X.filter (fun c => !isUnsafeByte c)).dropWhile (fun c => !isNetlocDelim c)) := by
    unfold splitNetloc
    rw [takeWhile_append_all hnall, dropWhile_append_all hnall]
  unfold urlsplitCore
  rw [cleanUrl_shaped X hγ hnc]
  simp only []
  rw [detectScheme_of_valid ('/' :: '/' :: (n ++ X.filter (fun c => !isUnsafeByte c))) hγ]
  simp only []
  rw [if_pos (show (('/' : Char) :: '/' :: (n ++ X.filter (fun c => !isUnsafeByte c))).take 2
    = ['/', '/'] from rfl)]
  rw [show (('/' : Char) :: '/' :: (n ++ X.filter (fun c => !isUnsafeByte c))).drop 2
    = n ++ X.filter (fun c => !isUnsafeByte c) from rfl]
  rw [hsp]

/-- Invariants of every successful urlsplit: the found scheme is valid,
the netloc is delimiter-free, the path holds no '?' or '#', the query
no '#', and netloc, path and query are free of unsafe bytes. -/
theorem urlsplitCore_inv {w : Chars} {sp : SplitParts}
    (h : urlsplitCore w = Except.ok sp) :
    (∀ s, sp.schemeFound = some s → ValidScheme s) ∧
    NoDelimChars sp.netloc ∧ CleanChars sp.netloc ∧
    ('?' ∉ sp.path) ∧ ('#' ∉ sp.path) ∧ CleanChars sp.path ∧
    ('#' ∉ sp.query) ∧ CleanChars sp.query := by
  have hclean : CleanChars (cleanUrl w) := cleanChars_cleanUrl w
  obtain ⟨hsV, hsub⟩ := detectScheme_inv (cleanUrl w)
  unfold urlsplitCore at h
  simp only [] at h
  by_cases h2 : (detectScheme (cleanUrl w)).2.take 2 = ['/', '/']
  · rw [if_pos h2] at h
    obtain ⟨hnd, hnl1, hnl2⟩ := splitNetloc_inv ((detectScheme (cleanUrl w)).2.drop 2)
    by_cases hbr : bracketFail (splitNetloc ((detectScheme (cleanUrl w)).2.drop 2)).1 = true
    · rw [if_pos hbr] at h
      cases h
    · rw [if_neg hbr] at h
      injection h with h'
      subst h'
      obtain ⟨hq1, hq2, hq3, hq4, hq5, hq6⟩ :=
        splitFragQuery_inv (splitNetloc ((detectScheme (cleanUrl w)).2.drop 2)).2
      have hRclean : ∀ x ∈ (detectScheme (cleanUrl w)).2.drop 2, isUnsafeByte x = false :=
        fun x hx => hclean x (hsub x (List.mem_of_mem_drop hx))
      refine ⟨fun s hs => hsV s hs, hnd, ?_, hq1, hq2, ?_, hq3, ?_⟩
      · exact fun x hx => hRclean x (hnl1 x hx)
      · exact fun x hx => hRclean x (hnl2 x (hq4 x hx))
      · exact fun x hx => hRclean x (hnl2 x (hq5 x hx))
  · rw [if_neg h2] at h
    injection h with h'
    subst h'
    obtain ⟨hq1, hq2, hq3, hq4, hq5, hq6⟩ := splitFragQuery_inv (detectScheme (cleanUrl w)).2
    refine ⟨fun s hs => hsV s hs, ?_, ?_, hq1, hq2, ?_, hq3, ?_⟩
    · intro x hx
      cases hx
    · intro x hx
      cases hx
    · exact fun x hx => hclean x (hsub x (hq4 x hx))
    · exact fun x hx => hclean x (hsub x (hq5 x hx))

/-- Invariants of every successful urlparse: on top of urlsplit's, the
path is parameter-free. -/
theorem urlparse_inv {w d : Chars} {p : ParseResult}
    (h : urlparse w d = Except.ok p) :
    (p.scheme = d ∨ ValidScheme p.scheme) ∧
    NoDelimChars p.netloc ∧ CleanChars p.netloc ∧
    ('?' ∉ p.path) ∧ ('#' ∉ p.path) ∧ CleanChars p.path ∧ NoParams p.path ∧
    ('#' ∉ p.query) ∧ CleanChars p.query := by
  unfold urlparse urlsplit at h
  cases hc : urlsplitCore w with
  | error e =>
    rw [hc, exbind_error, exbind_error] at h
    cases h
  | ok sp =>
    rw [hc, exbind_ok, expure, exbind_ok, expure] at h
    injection h with h'
    subst h'
    obtain ⟨hV, hnd, hnc, hp1, hp2, hpc, hq1, hqc⟩ := urlsplitCore_inv hc
    obtain ⟨hnp, hsub1, hsub2⟩ := splitparamsIf_fst sp.path
    refine ⟨?_, hnd, hnc, ?_, ?_, ?_, hnp, hq1, hqc⟩
    · cases hsf : sp.schemeFound with
      | none => left; rfl
      | some s => right; exact hV s hsf
    · exact fun hm => hp1 (hsub1 _ hm)
    · exact fun hm => hp2 (hsub1 _ hm)
    · exact fun x hx => hpc x (hsub1 x hx)

/-- The canonical string normalize_url rebuilds, written as a
scheme://netloc-headed list. -/
theorem rebuildUrl_shape (p : ParseResult) :
    rebuildUrl p =
      p.scheme ++ ':' :: '/' :: '/' :: (p.netloc ++ (p.path ++ optQuery p.query)) := by
  unfold rebuildUrl optQuery
  simp [List.append_assoc]

/-- Parsing a rebuilt URL: the scheme survives, the netloc absorbs the
path up to its first slash, and the rest of the path, the query and the
emptied params and fragment come back exactly; an unbalanced bracket in
the extended netloc raises.  The default scheme is irrelevant. -/
theorem parse_rebuild {p : ParseResult} (d : Chars) (hps : ValidScheme p.scheme)
    (hpn : NoDelimChars p.netloc) (hpnc : CleanChars p.netloc)
    (hpp1 : '?' ∉ p.path) (hpp2 : '#' ∉ p.path) (hppc : CleanChars p.path)
    (hppnp : NoParams p.path) (hpq1 : '#' ∉ p.query) (hpqc : CleanChars p.query) :
    urlparse (rebuildUrl p) d =
      (if bracketFail (p.netloc ++ p.path.takeWhile (fun c => !isNetlocDelim c)) = true then
        Except.error ("Invalid IPv6 URL")
      else
        Except.ok ⟨p.scheme, p.netloc ++ p.path.takeWhile (fun c => !isNetlocDelim c),
          p.path.dropWhile (fun c => !isNetlocDelim c), [], p.query, []⟩) := by
  have hXf : (p.path ++ optQuery p.query).filter (fun c => !isUnsafeByte c) =
      p.path ++ optQuery p.query := by
    apply List.filter_eq_self.mpr
    intro x hx
    rcases List.mem_append.mp hx with h | h
    · rw [hppc x h]; rfl
    · rw [optQuery_clean hpqc x h]; rfl
  have hTD : (p.path ++ optQuery p.query).takeWhile (fun c => !isNetlocDelim c) =
        p.path.takeWhile (fun c => !isNetlocDelim c) ∧
      (p.path ++ optQuery p.query).dropWhile (fun c => !isNetlocDelim c) =
        p.path.dropWhile (fun c => !isNetlocDelim c) ++ optQuery p.query := by
    by_cases hpd : p.path.dropWhile (fun c => !isNetlocDelim c) = []
    · have hall := List.dropWhile_eq_nil_iff.mp hpd
      constructor
      · rw [takeWhile_append_all hall, (optQuery_take_drop p.query).1, List.append_nil,
            takeWhile_all hall]
      · rw [dropWhile_append_all hall, (optQuery_take_drop p.query).2, hpd, List.nil_append]
    · exact ⟨takeWhile_append_stop hpd _, dropWhile_append_stop hpd _⟩
  have hpd1 : '?' ∉ p.path.dropWhile (fun c => !isNetlocDelim c) :=
    fun hm => hpp1 (mem_of_dropWhile hm)
  have hpd2 : '#' ∉ p.path.dropWhile (fun c => !isNetlocDelim c) :=
    fun hm => hpp2 (mem_of_dropWhile hm)
  have hfq : splitFragQuery (p.path.dropWhile (fun c => !isNetlocDelim c) ++ optQuery p.query) =
      (p.path.dropWhile (fun c => !isNetlocDelim c), p.query, []) := by
    have hre : p.path.dropWhile (fun c => !isNetlocDelim c) ++ optQuery p.query =
        p.path.dropWhile (fun c => !isNetlocDelim c) ++ optQuery p.query ++ optFrag [] := by
      simp [optFrag]
    rw [hre]
    exact splitFragQuery_shaped hpd1 hpd2 hpq1
  have hsp : splitparamsIf (p.path.dropWhile (fun c => !isNetlocDelim c)) =
      (p.path.dropWhile (fun c => !isNetlocDelim c), []) :=
    splitparamsIf_of_noparams (noParams_dropWhile hpp1 hpp2 hppnp).1
  unfold urlparse urlsplit
  rw [rebuildUrl_shape p,
      urlsplitCore_shaped (p.path ++ optQuery p.query) hps hpn hpnc, hXf, hTD.1, hTD.2]
  by_cases hbr : bracketFail (p.netloc ++ p.path.takeWhile (fun c => !isNetlocDelim c)) = true
  · rw [if_pos hbr, if_pos hbr, exbind_error, exbind_error]
  · rw [if_neg hbr, if_neg hbr, exbind_ok, expure, exbind_ok, expure, hfq]
    simp only []
    rw [hsp]
    rfl

/-- With a nonempty scheme and netloc, urlunparse's output is the
scheme, "://", the netloc, and some tail. -/
theorem urlunparse_shape_ex (γ n pa par q f : Chars) (hγ : γ ≠ []) (hn : n ≠ []) :
    ∃ tail, urlunparse γ n pa par q f = γ ++ ':' :: '/' :: '/' :: (n ++ tail) := by
  unfold urlunparse urlunsplit
  simp only []
  rw [if_pos (Or.inl hn), if_pos hγ]
  by_cases hq : q ≠ []
  · rw [if_pos hq]
    by_cases hf : f ≠ []
    · rw [if_pos hf]
      exact ⟨_, by simp only [List.append_assoc, List.cons_append]; rfl⟩
    · rw [if_neg hf]
      exact ⟨_, by simp only [List.append_assoc, List.cons_append]; rfl⟩
  · rw [if_neg hq]
    by_cases hf : f ≠ []
    · rw [if_pos hf]
      exact ⟨_, by simp only [List.append_assoc, List.cons_append]; rfl⟩
    · rw [if_neg hf]
      exact ⟨_, rfl⟩

/-- Both branches of urljoin's path resolution end in urlunparse with
the url's scheme and the chosen netloc. -/
theorem joinPaths_shape (b u : ParseResult) (nl : Chars) :
    ∃ pa par q f, joinPaths b u nl = urlunparse u.scheme nl pa par q f := by
  unfold joinPaths
  by_cases h : u.path = [] ∧ u.params = []
  · rw [if_pos h]
    exact ⟨_, _, _, _, rfl⟩
  · rw [if_neg h]
    exact ⟨_, _, _, _, rfl⟩

/-- Parsing a scheme://netloc-headed string recovers the scheme, and a
netloc at least as long as the one written. -/
theorem urlparse_shaped_scheme_netloc {γ n X d : Chars} {p : ParseResult}
    (hγ : ValidScheme γ) (hn : NoDelimChars n) (hnc : CleanChars n)
    (h : urlparse (γ ++ ':' :: '/' :: '/' :: (n ++ X)) d = Except.ok p) :
    p.scheme = γ ∧ (n ≠ [] → p.netloc ≠ []) := by
  unfold urlparse urlsplit at h
  rw [urlsplitCore_shaped X hγ hn hnc] at h
  by_cases hbr : bracketFail (n ++ (X.filter (fun c => !isUnsafeByte c)).takeWhile
      (fun c => !isNetlocDelim c)) = true
  · rw [if_pos hbr, exbind_error, exbind_error] at h
    cases h
  · rw [if_neg hbr, exbind_ok, expure, exbind_ok, expure] at h
    injection h with h'
    subst h'
    refine ⟨rfl, fun hne hcontra => ?_⟩
    have : n = [] ∧ (X.filter (fun c => !isUnsafeByte c)).takeWhile
        (fun c => !isNetlocDelim c) = [] := by
      rw [← List.append_eq_nil]
      exact hcontra
    exact hne this.1

/-- When the crawler's start URL parses with a nonempty scheme from
uses_relative and a nonempty netloc, any successfully reparsed urljoin
result has a valid scheme, and a nonempty netloc whenever its scheme
matches the base scheme. -/
theorem urljoin_side {base u0 r : Chars} {pb p : ParseResult}
    (hb : urlparse base [] = Except.ok pb)
    (hbs : pb.scheme ≠ []) (hbrel : pb.scheme ∈ usesRelative) (hbn : pb.netloc ≠ [])
    (hj : urljoin base u0 = Except.ok r)
    (hp : urlparse r [] = Except.ok p) :
    ValidScheme p.scheme ∧ (p.scheme = pb.scheme → p.netloc ≠ []) := by
  have hbV : ValidScheme pb.scheme := by
    rcases (urlparse_inv hb).1 with h | h
    · exact absurd h hbs
    · exact h
  obtain ⟨-, hbnd, hbnc, -, -, -, -, -, -⟩ := urlparse_inv hb
  unfold urljoin at hj
  by_cases hb0 : base = []
  · exfalso
    subst hb0
    rw [show urlparse ([] : Chars) [] = Except.ok ⟨[], [], [], [], [], []⟩ from rfl] at hb
    injection hb with h'
    apply hbs
    rw [← h']
  · rw [if_neg hb0] at hj
    by_cases hu0 : u0 = []
    · rw [if_pos hu0] at hj
      injection hj with h'
      subst h'
      rw [hb] at hp
      injection hp with h2
      subst h2
      exact ⟨hbV, fun _ => hbn⟩
    · rw [if_neg hu0, hb, exbind_ok] at hj
      cases hu : urlparse u0 pb.scheme with
      | error e =>
        rw [hu, exbind_error] at hj
        cases hj
      | ok u =>
        rw [hu, exbind_ok] at hj
        by_cases hcond : u.scheme ≠ pb.scheme ∨ u.scheme ∉ usesRelative
        · rw [if_pos hcond, expure] at hj
          injection hj with h'
          subst h'
          unfold urlparse urlsplit at hu hp
          cases hcore : urlsplitCore u0 with
          | error e =>
            rw [hcore, exbind_error, exbind_error] at hu
            cases hu
          | ok sp =>
            rw [hcore, exbind_ok, expure, exbind_ok, expure] at hu hp
            injection hu with hu'
            injection hp with hp'
            have hpsch : p.scheme = sp.schemeFound.getD [] := by rw [← hp']
            have husch : u.scheme = sp.schemeFound.getD pb.scheme := by rw [← hu']
            cases hsf : sp.schemeFound with
            | none =>
              exfalso
              rw [hsf, Option.getD_none] at husch
              rcases hcond with hc | hc
              · exact hc husch
              · rw [husch] at hc
                exact hc hbrel
            | some s =>
              rw [hsf, Option.getD_some] at hpsch husch
              have hV : ValidScheme s := (urlsplitCore_inv hcore).1 s hsf
              refine ⟨by rw [hpsch]; exact hV, fun hps => ?_⟩
              exfalso
              rw [hpsch] at hps
              rcases hcond with hc | hc
              · exact hc (by rw [husch, hps])
              · rw [husch, hps] at hc
                exact hc hbrel
        · rw [if_neg hcond] at hj
          push_neg at hcond
          obtain ⟨hsEq, hsRel⟩ := hcond
          have huV : ValidScheme u.scheme := by rw [hsEq]; exact hbV
          have hsNet : u.scheme ∈ usesNetloc := usesRel_sub _ hsRel
          rw [if_pos hsNet] at hj
          obtain ⟨-, hund, hunc, -, -, -, -, -, -⟩ := urlparse_inv hu
          by_cases hun : u.netloc ≠ []
          · rw [if_pos hun, expure] at hj
            injection hj with h'
            subst h'
            obtain ⟨tail, htail⟩ := urlunparse_shape_ex u.scheme u.netloc u.path
              u.params u.query u.fragment (validScheme_ne huV) hun
            rw [htail] at hp
            obtain ⟨hps, hpn⟩ := urlparse_shaped_scheme_netloc huV hund hunc hp
            refine ⟨by rw [hps]; exact huV, fun _ => hpn hun⟩
          · rw [if_neg hun, expure] at hj
            injection hj with h'
            subst h'
            obtain ⟨pa, par, q, f, hjp⟩ := joinPaths_shape pb u pb.netloc
            obtain ⟨tail, htail⟩ := urlunparse_shape_ex u.scheme pb.netloc pa par q f
              (validScheme_ne huV) hbn
            rw [hjp, htail] at hp
            obtain ⟨hps, hpn⟩ := urlparse_shaped_scheme_netloc huV hbnd hbnc hp
            refine ⟨by rw [hps]; exact huV, fun _ => hpn hbn⟩

/-- normalize_url's computation unfolded: resolve, reparse, rebuild,
returning the input on any error. -/
theorem normalizeChars_eq (start url : Chars) :
    normalizeChars start url =
      (match urljoin start url with
      | Except.error _ => url
      | Except.ok r =>
        match urlparse r [] with
        | Except.error _ => url
        | Except.ok p => rebuildUrl p) := by
  unfold normalizeChars
  cases hj : urljoin start url with
  | error e =>
    simp only []
    rw [exbind_error]
  | ok r =>
    cases hp : urlparse r [] with
    | error e =>
      simp only []
      rw [exbind_ok, hp, exbind_error]
    | ok p =>
      simp only []
      rw [exbind_ok, hp, exbind_ok, expure]

/-- Unparsing the components read back from a rebuilt URL reproduces the
rebuilt URL when the extended netloc is nonempty. -/
theorem urlunparse_rebuild {p : ParseResult} (hps : ValidScheme p.scheme)
    (hpp1 : '?' ∉ p.path) (hpp2 : '#' ∉ p.path) (hppnp : NoParams p.path)
    (hnl : p.netloc ++ p.path.takeWhile (fun c => !isNetlocDelim c) ≠ []) :
    urlunparse p.scheme (p.netloc ++ p.path.takeWhile (fun c => !isNetlocDelim c))
      (p.path.dropWhile (fun c => !isNetlocDelim c)) [] p.query [] = rebuildUrl p := by
  have hhead := (noParams_dropWhile hpp1 hpp2 hppnp).2
  have hslash : ¬(p.path.dropWhile (fun c => !isNetlocDelim c) ≠ [] ∧
      ¬(p.path.dropWhile (fun c => !isNetlocDelim c)).head? = some '/') := by
    rintro ⟨h1, h2⟩
    rcases hhead with h | h
    · exact h1 h
    · cases hpd : p.path.dropWhile (fun c => !isNetlocDelim c) with
      | nil => exact h1 hpd
      | cons y t =>
        rw [hpd] at h
        have hy : y = '/' := by simpa [List.take] using h
        apply h2
        rw [hpd, hy]
        rfl
  have hsplit : ∀ Z : Chars, p.path.takeWhile (fun c => !isNetlocDelim c) ++
      (p.path.dropWhile (fun c => !isNetlocDelim c) ++ Z) = p.path ++ Z := by
    intro Z
    rw [← List.append_assoc, List.takeWhile_append_dropWhile]
  unfold urlunparse urlunsplit
  simp only []
  rw [show (if ([] : Chars) ≠ [] then
      p.path.dropWhile (fun c => !isNetlocDelim c) ++ ';' :: []
    else p.path.dropWhile (fun c => !isNetlocDelim c)) =
      p.path.dropWhile (fun c => !isNetlocDelim c) from if_neg (fun hx => hx rfl)]
  rw [if_pos (Or.inl hnl)]
  rw [if_neg hslash]
  rw [if_pos (validScheme_ne hps)]
  rw [if_neg (show ¬(([] : Chars) ≠ []) from fun hx => hx rfl)]
  rw [rebuildUrl_shape]
  unfold optQuery
  by_cases hq : p.query ≠ []
  · rw [if_pos hq, if_neg (fun hx => hq (by rw [hx]) )]
    simp only [List.append_assoc, List.cons_append]
    rw [hsplit]
  · rw [if_neg hq, if_pos (by rw [not_not] at hq; exact hq)]
    simp only [List.append_assoc, List.cons_append, List.append_nil]
    rw [show p.path.takeWhile (fun c => !isNetlocDelim c) ++
        p.path.dropWhile (fun c => !isNetlocDelim c) = p.path from
      List.takeWhile_append_dropWhile _ _]

/-- A rebuilt URL whose parse facts and netloc side condition hold is a
fixpoint of normalize_url. -/
theorem normalize_fixed {base : Chars} {pb p : ParseResult}
    (hb : urlparse base [] = Except.ok pb)
    (hps : ValidScheme p.scheme)
    (hpn : NoDelimChars p.netloc) (hpnc : CleanChars p.netloc)
    (hpp1 : '?' ∉ p.path) (hpp2 : '#' ∉ p.path) (hppc : CleanChars p.path)
    (hppnp : NoParams p.path)
    (hpq1 : '#' ∉ p.query) (hpqc : CleanChars p.query)
    (hside : p.scheme = pb.scheme → p.netloc ≠ []) :
    normalizeChars base (rebuildUrl p) = rebuildUrl p := by
  have hvne : rebuildUrl p ≠ [] := by
    rw [rebuildUrl_shape]
    obtain ⟨⟨c, cs, hc, -⟩, -, -⟩ := hps
    rw [hc]
    simp
  rw [normalizeChars_eq]
  by_cases hbr : bracketFail (p.netloc ++ p.path.takeWhile (fun c => !isNetlocDelim c)) = true
  · have hperr : ∀ d, urlparse (rebuildUrl p) d = Except.error ("Invalid IPv6 URL") := by
      intro d
      rw [parse_rebuild d hps hpn hpnc hpp1 hpp2 hppc hppnp hpq1 hpqc, if_pos hbr]
    cases hj : urljoin base (rebuildUrl p) with
    | error e => rfl
    | ok r =>
      unfold urljoin at hj
      by_cases hb0 : base = []
      · rw [if_pos hb0] at hj
        injection hj with h'
        subst h'
        simp only []
        rw [hperr []]
      · rw [if_neg hb0, if_neg hvne, hb, exbind_ok, hperr pb.scheme, exbind_error] at hj
        cases hj
  · have hpok : ∀ d, urlparse (rebuildUrl p) d =
        Except.ok ⟨p.scheme, p.netloc ++ p.path.takeWhile (fun c => !isNetlocDelim c),
          p.path.dropWhile (fun c => !isNetlocDelim c), [], p.query, []⟩ := by
      intro d
      rw [parse_rebuild d hps hpn hpnc hpp1 hpp2 hppc hppnp hpq1 hpqc, if_neg hbr]
    have hreb : rebuildUrl ⟨p.scheme, p.netloc ++ p.path.takeWhile (fun c => !isNetlocDelim c),
        p.path.dropWhile (fun c => !isNetlocDelim c), [], p.query, []⟩ = rebuildUrl p := by
      rw [rebuildUrl_shape, rebuildUrl_shape]
      simp only [List.append_assoc]
      rw [show p.path.takeWhile (fun c => !isNetlocDelim c) ++
          (p.path.dropWhile (fun c => !isNetlocDelim c) ++ optQuery p.query) =
          p.path ++ optQuery p.query from by
        rw [← List.append_assoc, List.takeWhile_append_dropWhile]]
    cases hj : urljoin base (rebuildUrl p) with
    | error e => rfl
    | ok r =>
      unfold urljoin at hj
      by_cases hb0 : base = []
      · rw [if_pos hb0] at hj
        injection hj with h'
        subst h'
        simp only []
        rw [hpok []]
        exact hreb
      · rw [if_neg hb0, if_neg hvne, hb, exbind_ok, hpok pb.scheme, exbind_ok] at hj
        by_cases hcond : p.scheme ≠ pb.scheme ∨ p.scheme ∉ usesRelative
        · rw [if_pos hcond, expure] at hj
          injection hj with h'
          subst h'
          simp only []
          rw [hpok []]
          exact hreb
        · rw [if_neg hcond] at hj
          push_neg at hcond
          obtain ⟨hsEq, hsRel⟩ := hcond
          rw [if_pos (usesRel_sub _ hsRel)] at hj
          have hnlne : p.netloc ++ p.path.takeWhile (fun c => !isNetlocDelim c) ≠ [] := by
            intro hcontra
            exact hside hsEq (List.append_eq_nil.mp hcontra).1
          rw [if_pos hnlne, expure] at hj
          injection hj with h'
          subst h'
          simp only []
          rw [urlunparse_rebuild hps hpp1 hpp2 hppnp hnlne, hpok []]
          exact hreb

/-- C9 (amended): normalize_url is idempotent whenever the scraper's
start_url parses with a nonempty scheme that lies in uses_relative and
a nonempty netloc (true of every http(s) seed); for every input URL,
normalizing twice against such a base equals normalizing once. -/
theorem normalize_idempotent {base u : String} {pb : ParseResult}
    (hb : urlparse base.toList [] = Except.ok pb)
    (hbs : pb.scheme ≠ []) (hbrel : pb.scheme ∈ usesRelative)
    (hbn : pb.netloc ≠ []) :
    normalize_url base (normalize_url base u) = normalize_url base u := by
  unfold normalize_url
  rw [show String.toList ⟨normalizeChars base.toList u.toList⟩ =
    normalizeChars base.toList u.toList from rfl]
  congr 1
  cases hj : urljoin base.toList u.toList with
  | error e =>
    have hW : normalizeChars base.toList u.toList = u.toList := by
      rw [normalizeChars_eq, hj]
    rw [hW]
    exact hW
  | ok r =>
    cases hp : urlparse r [] with
    | error e =>
      have hW : normalizeChars base.toList u.toList = u.toList := by
        rw [normalizeChars_eq, hj]
        simp only []
        rw [hp]
      rw [hW]
      exact hW
    | ok p =>
      have hW : normalizeChars base.toList u.toList = rebuildUrl p := by
        rw [normalizeChars_eq, hj]
        simp only []
        rw [hp]
      rw [hW]
      obtain ⟨hVs, hside⟩ := urljoin_side hb hbs hbrel hbn hj hp
      obtain ⟨-, hnd, hnc, hp1, hp2, hpc, hnp, hq1, hqc⟩ := urlparse_inv hp
      exact normalize_fixed hb hVs hnd hnc hp1 hp2 hpc hnp hq1 hqc hside

/-- C9 witness: the seed http://h/ satisfies every hypothesis (its
parse has scheme http ∈ uses_relative and netloc h), and double
normalization of a/b/../c?q#f against it equals single
normalization. -/
theorem normalize_idempotent_witness :
    urlparse (("http://h/").toList) [] =
      Except.ok ⟨("http").toList, ("h").toList, ("/").toList, [], [], []⟩ ∧
    normalize_url ("http://h/") (normalize_url ("http://h/") ("a/b/../c?q#f")) =
      normalize_url ("http://h/") ("a/b/../c?q#f") :=
  ⟨rfl, @normalize_idempotent ("http://h/") ("a/b/../c?q#f")
    ⟨("http").toList, ("h").toList, ("/").toList, [], [], []⟩
    rfl (by decide) (by decide) (by decide)⟩

/-- C9 counterexample: against the base mailto:a (a scheme outside
uses_relative, no netloc), normalizing the href b yields ://b, and
normalizing again yields ://://b, so normalization is not idempotent
for arbitrary bases. -/
theorem normalize_not_idempotent :
    normalize_url ("mailto:a") ("b") = ("://b") ∧
    normalize_url ("mailto:a") (normalize_url ("mailto:a") ("b")) = ("://://b") ∧
    (("://://b") : String) ≠ ("://b") :=
  ⟨by decide, by decide, by decide⟩

end WebScraper
